import Mathlib

/-!
Verification of the rsdb storage and SQL layers.

This file shallowly embeds the relevant parts of the rsdb source:

* `src/storage/keycode.rs` — the order-preserving key codec
  (`serialize_bytes` escaping, big-endian `u64`, variant tags, and the
  corresponding deserializer);
* `src/storage/mvcc.rs` — `MvccKey`, `MvccKeyPrefix`, `TransactionState`,
  and the transaction operations `begin`, `commit`, `rollback`, `get`,
  `set`/`delete` (`write_inner`) and `scan_prefix`;
* `src/sql/schema.rs`, `src/sql/engine/kv.rs`, `src/sql/executor/mutation.rs`
  — tables, rows, `create_row`, `get_primary_key`, `pad_row`, `make_row`;
* `src/sql/parser/lexer.rs` — the tokenizer;
* `src/sql/plan/planner.rs` — `build_scan` / `parse_scan_filter`;
* `src/sql/engine/mod.rs` — `Session::execute`.

Machine bytes are modelled as `List Nat` (every byte produced by the codec
is `< 256`); `u64` values are `Nat` with explicit `2 ^ 64` bounds where
overflow could matter.  The pluggable byte engine (`storage/engine.rs` /
`storage/memory.rs`, absent from the source tree; only a stale stub of
`storage/mod.rs` remains) is modelled from the spec as an ordered map from
byte keys to values with ascending half-open range scans and ascending
prefix scans.  `bincode`-serialized payloads are modelled by the payload
itself (bincode is injective per type); Rust `String` error payloads are
dropped, keeping only the error constructor.  A Rust panic (out-of-bounds
index, `expect`) is modelled by the dedicated outcome `RErr.panicOOB`,
distinct from every `RSDBError` constructor.
-/

namespace RSDB

/-- Machine bytes: a `Vec<u8>` is a list of naturals (each `< 256`). -/
abbrev Bytes := List Nat

/-- Byte-lexicographic comparison, the ordering of `Vec<u8>` in Rust
(shorter lists compare less than their extensions). -/
def bytesCmp : Bytes → Bytes → Ordering
  | [], [] => .eq
  | [], _ :: _ => .lt
  | _ :: _, [] => .gt
  | a :: as, b :: bs => if a < b then .lt else if b < a then .gt else bytesCmp as bs

/-- Strict byte-lexicographic order as a boolean. -/
def bytesLt (a b : Bytes) : Bool := bytesCmp a b == .lt

/-- Non-strict byte-lexicographic order as a boolean. -/
def bytesLe (a b : Bytes) : Bool := !(bytesCmp a b == .gt)

/-! ## The keycode byte-string escape (`Serializer::serialize_bytes`) -/

/-- Encoding of a single input byte inside `serialize_bytes`
(src/storage/keycode.rs lines 102-115): `0x00` becomes `0x00 0xFF`,
every other byte is kept as is. -/
def chunk (b : Nat) : Bytes := if b = 0 then [0, 255] else [b]

/-- Concatenation of the per-byte chunks of `serialize_bytes`. -/
def escChunks : Bytes → Bytes
  | [] => []
  | b :: k => chunk b ++ escChunks k

/-- Full output of `serialize_bytes`: escaped bytes plus the `0x00 0x00`
terminator. -/
def encBytes (k : Bytes) : Bytes := escChunks k ++ [0, 0]

/-! ## Big-endian `u64` (`Serializer::serialize_u64` / `to_be_bytes`) -/

/-- The `n` low-order base-256 digits of `v`, most significant first. -/
def beDigits : Nat → Nat → Bytes
  | 0, _ => []
  | n + 1, v => beDigits n (v / 256) ++ [v % 256]

/-- `u64::to_be_bytes`: 8 big-endian bytes. -/
def be64 (v : Nat) : Bytes := beDigits 8 v

/-- `u64::from_be_bytes`: big-endian byte-list value. -/
def beVal (l : Bytes) : Nat := l.foldl (fun acc d => acc * 256 + d) 0

/-! ## Deserializer primitives (`Deserializer::next_bytes`, `take_bytes`) -/

/-- Embedding of `Deserializer::next_bytes` (src/storage/keycode.rs lines
284-300): undo the `0x00 0xFF` escaping up to the `0x00 0x00` terminator,
returning the decoded bytes and the remaining input; `none` models the
`unexpected input` error. -/
def unesc : Bytes → Option (Bytes × Bytes)
  | [] => none
  | b :: rest =>
    if b = 0 then
      match rest with
      | 0 :: r => some ([], r)
      | 255 :: r => (unesc r).map (fun p => (0 :: p.1, p.2))
      | _ => none
    else (unesc rest).map (fun p => (b :: p.1, p.2))

/-- Embedding of `take_bytes(8)` followed by `u64::from_be_bytes`; Rust
panics when fewer than 8 bytes remain, modelled by `none`. -/
def take8 (l : Bytes) : Option (Nat × Bytes) :=
  if 8 ≤ l.length then some (beVal (l.take 8), l.drop 8) else none

/-! ## `MvccKey` and `MvccKeyPrefix` (src/storage/mvcc.rs lines 280-310) -/

/-- The MVCC key space.  Serde variant indices: `NextVersion = 0`,
`TxnActive = 1`, `TxnWrite = 2`, `Version = 3`. -/
inductive MvccKey where
  | nextVersion : MvccKey
  | txnActive (v : Nat) : MvccKey
  | txnWrite (v : Nat) (key : Bytes) : MvccKey
  | version (key : Bytes) (v : Nat) : MvccKey
deriving DecidableEq, Repr

/-- `MvccKey::encode` via `serialize_key`: variant-index byte, then the
fields in order (`u64` big-endian, byte strings escaped and terminated). -/
def encodeMvccKey : MvccKey → Bytes
  | .nextVersion => [0]
  | .txnActive v => 1 :: be64 v
  | .txnWrite v k => 2 :: (be64 v ++ encBytes k)
  | .version k v => 3 :: (encBytes k ++ be64 v)

/-- The `MvccKeyPrefix` enum (same variant indices, truncated fields). -/
inductive MvccKeyPfx where
  | nextVersion : MvccKeyPfx
  | txnActive : MvccKeyPfx
  | txnWrite (v : Nat) : MvccKeyPfx
  | version (key : Bytes) : MvccKeyPfx
deriving DecidableEq, Repr

/-- `MvccKeyPrefix::encode` via `serialize_key`. -/
def encodeMvccKeyPfx : MvccKeyPfx → Bytes
  | .nextVersion => [0]
  | .txnActive => [1]
  | .txnWrite v => 2 :: be64 v
  | .version k => 3 :: encBytes k

/-- `MvccKey::decode` via `deserialize_key`; `none` models both decode
errors and the panics of `take_bytes` on truncated input.  Leftover bytes
after the decoded key are ignored, as in the Rust deserializer. -/
def decodeMvccKey (b : Bytes) : Option MvccKey :=
  match b with
  | [] => none
  | t :: rest =>
    if t = 0 then some .nextVersion
    else if t = 1 then (take8 rest).map (fun p => .txnActive p.1)
    else if t = 2 then
      (take8 rest).bind (fun p => (unesc p.2).map (fun q => .txnWrite p.1 q.1))
    else if t = 3 then
      (unesc rest).bind (fun q => (take8 q.2).map (fun p => .version q.1 p.1))
    else none

/-- Versions fit in a `u64`. -/
def keyWf : MvccKey → Prop
  | .nextVersion => True
  | .txnActive v => v < 2 ^ 64
  | .txnWrite v _ => v < 2 ^ 64
  | .version _ v => v < 2 ^ 64

/-! ## Errors and results (src/error.rs) -/

/-- Outcomes: the three `RSDBError` constructors (`Parse`, `Internal`,
`WriteConflict`; string payloads dropped) plus `panicOOB`, which models a
Rust panic (out-of-bounds index / `expect`) and is distinct from every
`RSDBError` value. -/
inductive RErr where
  | parse : RErr
  | internal : RErr
  | writeConflict : RErr
  | panicOOB : RErr
deriving DecidableEq, Repr

/-- `RSDBResult<T>`, with panics adjoined. -/
abbrev RRes (α : Type) := Except RErr α

/-! ## The byte engine

Modelled from the spec: the pluggable storage engine
(`storage/engine.rs` / `storage/memory.rs` are missing from the source
tree, spec §4.2) is an ordered map from raw byte keys to values; `scan`
iterates a half-open byte range `[lo, hi)` in ascending key order (Rust
`from..to`), and `scan_prefix` iterates all keys having the given byte
prefix, in ascending order. -/

/-- Values stored in the engine, per the type that rsdb bincode-serializes
at each key: the `u64` next-version counter, the empty vector at
`TxnActive`/`TxnWrite` keys, and `Option<Vec<u8>>` at `Version` keys. -/
inductive VStore where
  | num (n : Nat) : VStore
  | unit : VStore
  | opt (o : Option Bytes) : VStore
deriving DecidableEq, Repr

/-- Engine state: association list of (encoded key, stored value), kept in
ascending key order by `engSet`. -/
abbrev Engine := List (Bytes × VStore)

/-- Modelled from the spec: ordered-map insert (replace on equal key). -/
def engSet (k : Bytes) (v : VStore) : Engine → Engine
  | [] => [(k, v)]
  | (k', v') :: t =>
    match bytesCmp k k' with
    | .lt => (k, v) :: (k', v') :: t
    | .eq => (k, v) :: t
    | .gt => (k', v') :: engSet k v t

/-- Modelled from the spec: point lookup. -/
def engGet (k : Bytes) : Engine → Option VStore
  | [] => none
  | (k', v') :: t => if k = k' then some v' else engGet k t

/-- Modelled from the spec: point delete. -/
def engDelete (k : Bytes) (e : Engine) : Engine :=
  e.filter (fun kv => !(kv.1 == k))

/-- Modelled from the spec: ascending scan of the half-open range
`[lo, hi)`. -/
def engScan (lo hi : Bytes) (e : Engine) : Engine :=
  e.filter (fun kv => bytesLe lo kv.1 && bytesLt kv.1 hi)

/-- Boolean byte-prefix test. -/
def bytesHasPfx (p k : Bytes) : Bool := decide (p <+: k)

/-- Modelled from the spec: ascending scan of all keys with byte prefix
`p`. -/
def engScanPfx (p : Bytes) (e : Engine) : Engine :=
  e.filter (fun kv => bytesHasPfx p kv.1)

/-! ## MVCC transactions (src/storage/mvcc.rs) -/

/-- `TransactionState`: the transaction's own version and the snapshot of
active versions taken at begin (a `HashSet` in Rust; only `contains` and
`min` are used, so a list models it faithfully). -/
structure TxnState where
  version : Nat
  active : List Nat
deriving DecidableEq, Repr

/-- `TransactionState::is_visible` (lines 271-278): a version in the
active set is invisible; otherwise `version < self.version`. -/
def isVisible (ts : TxnState) (v : Nat) : Bool :=
  if ts.active.contains v then false else decide (v < ts.version)

/-- The reverse iteration inside `MvccTransaction::get`: first entry (in
the given order) whose decoded version is visible; non-`Version` keys are
an `Internal` error, a non-`opt` stored value is a bincode `Internal`
error. -/
def firstVisible (ts : TxnState) : List (Bytes × VStore) → RRes (Option Bytes)
  | [] => .ok none
  | (k, v) :: rest =>
    match decodeMvccKey k with
    | some (.version _ w) =>
      if isVisible ts w then
        match v with
        | .opt o => .ok o
        | _ => .error .internal
      else firstVisible ts rest
    | _ => .error .internal

/-- `MvccTransaction::get` (lines 132-154): reverse-scan the half-open
engine range `Version(key, 0) .. Version(key, self.version)` — the upper
bound `Version(key, self.version)` is excluded, as by the Rust `from..to`
range — and return the first visible version's payload. -/
def mvccGet (ts : TxnState) (e : Engine) (key : Bytes) : RRes (Option Bytes) :=
  firstVisible ts
    (engScan (encodeMvccKey (.version key 0))
      (encodeMvccKey (.version key ts.version)) e).reverse

/-- `u64::MAX`. -/
def u64MAX : Nat := 2 ^ 64 - 1

/-- `self.state.active_versions.iter().min().copied().unwrap_or(self.state.version + 1)`. -/
def minActive (ts : TxnState) : Nat := ts.active.min?.getD (ts.version + 1)

/-- `MvccTransaction::write_inner` (lines 191-233), conflict-check part:
scan `Version(key, min(active ∪ {v+1})) .. Version(key, u64::MAX)` and
inspect the last entry; if its version is not visible fail with
`WriteConflict`. -/
def checkDecoded (ts : TxnState) : Option MvccKey → RRes Unit
  | some (.version _ w) => if isVisible ts w then .ok () else .error .writeConflict
  | some .nextVersion => .error .internal
  | some (.txnActive _) => .error .internal
  | some (.txnWrite _ _) => .error .internal
  | none => .error .internal

/-- The inspection of the last scanned entry inside `write_inner`: absent
entry is fine; a decoded `Version` is checked for visibility; any other
decode result is the `Internal` error branch. -/
def checkLastEntry (ts : TxnState) : Option (Bytes × VStore) → RRes Unit
  | none => .ok ()
  | some (k, _) => checkDecoded ts (decodeMvccKey k)

/-- The conflict-check scan of `write_inner`. -/
def mvccConflictCheck (ts : TxnState) (e : Engine) (key : Bytes) : RRes Unit :=
  checkLastEntry ts
    ((engScan (encodeMvccKey (.version key (minActive ts)))
      (encodeMvccKey (.version key u64MAX)) e).getLast?)

/-- Continuation of `write_inner` past the conflict check: record
`TxnWrite(v, key)`, then write `Version(key, v)`. -/
def mvccWriteInner (ts : TxnState) (e : Engine) (key : Bytes) (value : Option Bytes) :
    RRes Engine :=
  match mvccConflictCheck ts e key with
  | .error err => .error err
  | .ok _ =>
    .ok (engSet (encodeMvccKey (.version key ts.version)) (.opt value)
      (engSet (encodeMvccKey (.txnWrite ts.version key)) .unit e))

/-- `MvccTransaction::set`. -/
def mvccSet (ts : TxnState) (e : Engine) (key value : Bytes) : RRes Engine :=
  mvccWriteInner ts e key (some value)

/-- `MvccTransaction::delete`. -/
def mvccDel (ts : TxnState) (e : Engine) (key : Bytes) : RRes Engine :=
  mvccWriteInner ts e key none

/-- `MvccTransaction::commit` (lines 76-91): delete all
`TxnWrite(self.version, *)` entries, then the `TxnActive(self.version)`
marker.  No fallible step remains in the model, so the result is pure. -/
def mvccCommit (ts : TxnState) (e : Engine) : Engine :=
  engDelete (encodeMvccKey (.txnActive ts.version))
    (((engScanPfx (encodeMvccKeyPfx (.txnWrite ts.version)) e).map (fun kv => kv.1)).foldl
      (fun acc k => engDelete k acc) e)

/-- The collection loop of `MvccTransaction::rollback`: for each scanned
entry decode the key; a `TxnWrite(_, raw_key)` contributes the entry's key
and `Version(raw_key, self.version)`, anything else is an `Internal`
error. -/
def rollbackKeys (v : Nat) : List (Bytes × VStore) → RRes (List Bytes × List Bytes)
  | [] => .ok ([], [])
  | (k, _) :: rest =>
    match decodeMvccKey k with
    | some (.txnWrite _ rawKey) =>
      match rollbackKeys v rest with
      | .ok (tws, vers) => .ok (k :: tws, encodeMvccKey (.version rawKey v) :: vers)
      | .error err => .error err
    | _ => .error .internal

/-- `MvccTransaction::rollback` (lines 93-122): collect the transaction's
`TxnWrite` entries, delete them, delete each recorded
`Version(raw_key, self.version)`, then delete `TxnActive(self.version)`. -/
def mvccRollback (ts : TxnState) (e : Engine) : RRes Engine :=
  match rollbackKeys ts.version (engScanPfx (encodeMvccKeyPfx (.txnWrite ts.version)) e) with
  | .error err => .error err
  | .ok (tws, vers) =>
    .ok (engDelete (encodeMvccKey (.txnActive ts.version))
      (vers.foldl (fun acc k => engDelete k acc)
        (tws.foldl (fun acc k => engDelete k acc) e)))

/-- Sorted-map insert for the `BTreeMap<raw_key, value>` used by
`scan_prefix`. -/
def mapIns (k v : Bytes) : List (Bytes × Bytes) → List (Bytes × Bytes)
  | [] => [(k, v)]
  | (k', v') :: t =>
    match bytesCmp k k' with
    | .lt => (k, v) :: (k', v') :: t
    | .eq => (k, v) :: t
    | .gt => (k', v') :: mapIns k v t

/-- Sorted-map remove for the `BTreeMap<raw_key, value>`. -/
def mapDel (k : Bytes) (m : List (Bytes × Bytes)) : List (Bytes × Bytes) :=
  m.filter (fun kv => !(kv.1 == k))

/-- The accumulation loop of `MvccTransaction::scan_prefix`: decode each
entry, and for a visible `Version(raw_key, w)` insert the payload on
`Some` and remove the raw key on `None` (tombstone). -/
def scanFold (ts : TxnState) :
    List (Bytes × VStore) → List (Bytes × Bytes) → RRes (List (Bytes × Bytes))
  | [], m => .ok m
  | (k, v) :: rest, m =>
    match decodeMvccKey k with
    | some (.version rawKey w) =>
      if isVisible ts w then
        match v with
        | .opt (some rv) => scanFold ts rest (mapIns rawKey rv m)
        | .opt none => scanFold ts rest (mapDel rawKey m)
        | _ => .error .internal
      else scanFold ts rest m
    | _ => .error .internal

/-- `MvccTransaction::scan_prefix` (lines 156-188): encode
`MvccKeyPrefix::Version(prefix)`, truncate the trailing `0x00 0x00`
terminator, scan all engine keys with that byte prefix, and fold visible
versions into an ordered map, emitted as sorted pairs. -/
def versionPfxTrunc (pfx : Bytes) : Bytes :=
  (encodeMvccKeyPfx (.version pfx)).take ((encodeMvccKeyPfx (.version pfx)).length - 2)

/-- `MvccTransaction::scan_prefix`, continued: scan all engine keys with
the truncated byte prefix and fold visible versions into the map. -/
def mvccScanPfx (ts : TxnState) (e : Engine) (pfx : Bytes) : RRes (List (Bytes × Bytes)) :=
  scanFold ts (engScanPfx (versionPfxTrunc pfx) e) []

/-- The collection loop of `MvccTransaction::scan_active`: decode each
entry under the `TxnActive` prefix; anything else is an `Internal`
error. -/
def collectActive : List (Bytes × VStore) → RRes (List Nat)
  | [] => .ok []
  | (k, _) :: rest =>
    match decodeMvccKey k with
    | some (.txnActive v) =>
      match collectActive rest with
      | .ok vs => .ok (v :: vs)
      | .error err => .error err
    | _ => .error .internal

/-- `MvccTransaction::begin` (lines 50-74): read the next-version counter
(0 when absent), store the incremented counter, snapshot the active set,
publish `TxnActive(version)`, and return the transaction state. -/
def mvccBeginVersion (e : Engine) : RRes Nat :=
  match engGet (encodeMvccKey .nextVersion) e with
  | none => .ok 0
  | some (.num n) => .ok n
  | some _ => .error .internal

/-- `MvccTransaction::begin`, continued: store the incremented counter,
snapshot the active set, publish `TxnActive(version)`. -/
def mvccBegin (e : Engine) : RRes (TxnState × Engine) :=
  match mvccBeginVersion e with
  | .error err => .error err
  | .ok v =>
    match collectActive (engScanPfx (encodeMvccKeyPfx .txnActive)
        (engSet (encodeMvccKey .nextVersion) (.num (v + 1)) e)) with
    | .error err => .error err
    | .ok active =>
      .ok (⟨v, active⟩,
        engSet (encodeMvccKey (.txnActive v)) .unit
          (engSet (encodeMvccKey .nextVersion) (.num (v + 1)) e))

/-- A sequence of `set`/`delete` calls through one transaction; a call
that errors leaves the engine unchanged (the caller observes the error and
may continue), matching `write_inner`, which mutates nothing on the
conflict path. -/
def applyWrites (ts : TxnState) (e : Engine) : List (Bytes × Option Bytes) → Engine
  | [] => e
  | (k, val) :: rest =>
    match mvccWriteInner ts e k val with
    | .ok e' => applyWrites ts e' rest
    | .error _ => applyWrites ts e rest

/-! ## Well-formed engine states -/

/-- Boolean form of `keyWf`. -/
def keyWfB : MvccKey → Bool
  | .nextVersion => true
  | .txnActive v => decide (v < 2 ^ 64)
  | .txnWrite v _ => decide (v < 2 ^ 64)
  | .version _ v => decide (v < 2 ^ 64)

/-- An engine entry is canonical when its key is the encoding of a
well-formed `MvccKey` and its value has the Rust type rsdb stores at that
key (`u64` at `NextVersion`, the empty vector at `TxnActive`/`TxnWrite`,
`Option<Vec<u8>>` at `Version`). -/
def valueKindOk : MvccKey → VStore → Bool
  | .nextVersion, .num _ => true
  | .txnActive _, .unit => true
  | .txnWrite _ _, .unit => true
  | .version _ _, .opt _ => true
  | _, _ => false

/-- A canonical entry: the key round-trips through the codec and the value
has the matching kind. -/
def canonicalEntry (e : Bytes × VStore) : Bool :=
  match decodeMvccKey e.1 with
  | none => false
  | some k => decide (e.1 = encodeMvccKey k) && keyWfB k && valueKindOk k e.2

/-- Ascending strict key order of an engine association list. -/
def engSorted : Engine → Bool
  | [] => true
  | [_] => true
  | a :: b :: t => bytesLt a.1 b.1 && engSorted (b :: t)

/-- Semantic byte-range test on keys for the `write_inner` conflict scan:
the key encodes `Version(K, w)` with `x ≤ w < y`. -/
def isVerKeyOf (K : Bytes) (x y : Nat) : Option MvccKey → Bool
  | some (.version k w) => decide (k = K) && decide (x ≤ w) && decide (w < y)
  | some .nextVersion => false
  | some (.txnActive _) => false
  | some (.txnWrite _ _) => false
  | none => false

/-- Semantic byte-range test on keys, continued: applied to the decoded
key. -/
def isVerInRangeB (K : Bytes) (x y : Nat) (b : Bytes) : Bool :=
  isVerKeyOf K x y (decodeMvccKey b)

/-- Version number of an engine entry whose key decodes to a `Version`
key (0 for any other entry). -/
def keyVersionOf : Option MvccKey → Nat
  | some (.version _ w) => w
  | some .nextVersion => 0
  | some (.txnActive _) => 0
  | some (.txnWrite _ _) => 0
  | none => 0

/-- Version number of an engine entry, continued. -/
def entryVersion (e : Bytes × VStore) : Nat :=
  keyVersionOf (decodeMvccKey e.1)

/-- The versions of raw key `K` present in the engine inside the
`write_inner` scan window `[min(active ∪ {v+1}), u64::MAX)`, in engine
order. -/
def verWindow (ts : TxnState) (E : Engine) (K : Bytes) : List Nat :=
  (E.filter (fun e => isVerInRangeB K (minActive ts) u64MAX e.1)).map entryVersion

/-! ## Rollback infrastructure -/

/-- Key freshness with respect to version `v`: the key does not decode to
a `Version(_, v)` entry.  Together with the codec roundtrip this implies
the key is not `encode(Version(k, v))` for any raw key `k`. -/
def freshVer (v : Nat) (b : Bytes) : Bool :=
  match decodeMvccKey b with
  | some (.version _ w) => decide (w ≠ v)
  | some .nextVersion => true
  | some (.txnActive _) => true
  | some (.txnWrite _ _) => true
  | none => true

/-- Key membership in an engine association list. -/
def containsKey (b : Bytes) (E : Engine) : Bool :=
  E.any (fun e => e.1 == b)

/-- Membership in a list of keys. -/
def keyInList (b : Bytes) (L : List Bytes) : Bool :=
  L.any (fun k => k == b)

/-- Every engine entry matching the `TxnWrite(v)` byte prefix is a
canonically encoded `TxnWrite(v, kk)` key. -/
def twInvA (v : Nat) (E : Engine) : Prop :=
  ∀ e ∈ E, bytesHasPfx (encodeMvccKeyPfx (.txnWrite v)) e.1 = true →
    ∃ kk, e.1 = encodeMvccKey (.txnWrite v kk)

/-- Every `Version(kk, v)` entry has its `TxnWrite(v, kk)` twin. -/
def twInvB (v : Nat) (E : Engine) : Prop :=
  ∀ kk, containsKey (encodeMvccKey (.version kk v)) E = true →
    containsKey (encodeMvccKey (.txnWrite v kk)) E = true

/-- Variant index of an `MvccKey`: its first encoded byte. -/
def keyTag : MvccKey → Nat
  | .nextVersion => 0
  | .txnActive _ => 1
  | .txnWrite _ _ => 2
  | .version _ _ => 3

/-- The declared ordering on keys from the claim: variant tag first, then
fields left to right, `u64`s numerically, byte strings
byte-lexicographically.  This is the spec-side comparison, to be measured
against the byte order of the encodings. -/
def keyCmp : MvccKey → MvccKey → Ordering
  | .nextVersion, .nextVersion => .eq
  | .txnActive v, .txnActive w => compare v w
  | .txnWrite v k, .txnWrite w l =>
    match compare v w with
    | .eq => bytesCmp k l
    | o => o
  | .version k v, .version l w =>
    match bytesCmp k l with
    | .eq => compare v w
    | o => o
  | a, b => compare (keyTag a) (keyTag b)

/-- Association-list lookup in the `BTreeMap` model. -/
def mlook (k : Bytes) : List (Bytes × Bytes) → Option Bytes
  | [] => none
  | (k', v) :: t => if k = k' then some v else mlook k t

/-- Strict ascending key order of the map model. -/
def MapAsc (m : List (Bytes × Bytes)) : Prop :=
  List.Pairwise (fun a b => bytesLt a.1 b.1 = true) m

/-- The per-entry action `scan_prefix` takes for raw key `k`, split on the
stored value kind: a visible `Version(k, w)` entry yields its payload
(`some rv` inserts, `none` removes), anything else contributes nothing. -/
def actVal (ts : TxnState) (k kk : Bytes) (w : Nat) : VStore → Option (Option Bytes)
  | .opt o => if kk = k ∧ isVisible ts w = true then some o else none
  | .num _ => none
  | .unit => none

/-- The per-entry action, dispatched on the decoded key. -/
def actOfKey (ts : TxnState) (k : Bytes) : Option MvccKey → VStore → Option (Option Bytes)
  | some (.version kk w), v => actVal ts k kk w v
  | some .nextVersion, _ => none
  | some (.txnActive _), _ => none
  | some (.txnWrite _ _), _ => none
  | none, _ => none

/-- The per-entry action on an engine entry. -/
def actOf (ts : TxnState) (k : Bytes) (e : Bytes × VStore) : Option (Option Bytes) :=
  actOfKey ts k (decodeMvccKey e.1) e.2

/-- The action of the last (in engine order, hence highest-version for a
sorted canonical engine) self-visible version of raw key `k`:
`some (some v)` when it stores `v`, `some none` for a tombstone, `none`
when no visible version exists. -/
def lastVisible (ts : TxnState) (E : Engine) (k : Bytes) : Option (Option Bytes) :=
  (E.filterMap (fun e => actOf ts k e)).getLast?

/-- Version-tagged variant of `actVal`. -/
def wActVal (ts : TxnState) (k kk : Bytes) (w : Nat) : VStore → Option (Nat × Option Bytes)
  | .opt o => if kk = k ∧ isVisible ts w = true then some (w, o) else none
  | .num _ => none
  | .unit => none

/-- Version-tagged variant of `actOfKey`. -/
def wActKey (ts : TxnState) (k : Bytes) : Option MvccKey → VStore → Option (Nat × Option Bytes)
  | some (.version kk w), v => wActVal ts k kk w v
  | some .nextVersion, _ => none
  | some (.txnActive _), _ => none
  | some (.txnWrite _ _), _ => none
  | none, _ => none

/-- Version-tagged variant of `actOf`: a visible version of `k` together
with its version number. -/
def wAct (ts : TxnState) (k : Bytes) (e : Bytes × VStore) : Option (Nat × Option Bytes) :=
  wActKey ts k (decodeMvccKey e.1) e.2

/-- Resolution of the last recorded action: the payload of a final
insert, nothing after a final tombstone, the base binding when no action
was recorded. -/
def lastToVal (base : Option Bytes) : Option (Option Bytes) → Option Bytes
  | some (some v) => some v
  | some none => none
  | none => base

/-! ## SQL values and schema (src/sql/types/mod.rs, src/sql/schema.rs) -/

/-- `DataType`. -/
inductive DataType where
  | boolean
  | integer
  | float
  | string
deriving DecidableEq, Repr

/-- `Value`; `Float(f64)` carries its raw 64-bit pattern, which is all
these claims inspect. -/
inductive Value where
  | null
  | boolean (b : Bool)
  | integer (i : Int)
  | float (bits : Nat)
  | string (s : String)
deriving DecidableEq, Repr

/-- `Value::datatype`. -/
def Value.datatype : Value → Option DataType
  | .null => none
  | .boolean _ => some .boolean
  | .integer _ => some .integer
  | .float _ => some .float
  | .string _ => some .string

/-- `ast::Consts`. -/
inductive Consts where
  | null
  | boolean (b : Bool)
  | integer (i : Int)
  | float (bits : Nat)
  | string (s : String)
deriving DecidableEq, Repr

mutual
/-- `ast::Expression` and `ast::Operation` (mutually nested as in the
source). -/
inductive Expression where
  | field (name : String)
  | consts (c : Consts)
  | operation (op : Operation)
  | function (name arg : String)
inductive Operation where
  | equal (l r : Expression)
  | greaterThan (l r : Expression)
  | lessThan (l r : Expression)
end

/-- `ast::OrderDirection`. -/
inductive OrderDirection where
  | asc
  | desc

/-- `ast::JoinType`. -/
inductive JoinType where
  | cross
  | inner
  | left
  | right

/-- `ast::FromItem`. -/
inductive FromItem where
  | table (name : String)
  | join (l r : FromItem) (joinType : JoinType) (predicate : Option Expression)

/-- `ast::Column` (the parser-level column; `default` is a reserved word
in Lean, hence `dflt`). -/
structure AstColumn where
  name : String
  datatype : DataType
  nullable : Option Bool
  dflt : Option Expression
  primaryKey : Bool

/-- `ast::Statement`. -/
inductive Statement where
  | createTable (name : String) (columns : List AstColumn)
  | insert (tableName : String) (columns : Option (List String))
      (values : List (List Expression))
  | select (sel : List (Expression × Option String)) (frm : FromItem)
      (whereClause : Option Expression) (groupBy : Option Expression)
      (having : Option Expression) (orderBy : List (String × OrderDirection))
      (lim : Option Expression) (off : Option Expression)
  | update (tableName : String) (columns : List (String × Expression))
      (whereClause : Option Expression)
  | delete (tableName : String) (whereClause : Option Expression)
  | begin
  | commit
  | rollback

/-- `schema::Column` (`default` is reserved in Lean, hence `dflt`). -/
structure Column where
  name : String
  datatype : DataType
  nullable : Bool
  dflt : Option Value
  primaryKey : Bool
  index : Bool
deriving DecidableEq, Repr

/-- `schema::Table`. -/
structure Table where
  name : String
  columns : List Column
deriving DecidableEq, Repr

/-- `Value::from_expression` on the `Consts` arm. -/
def fromConsts : Consts → Value
  | .null => .null
  | .boolean b => .boolean b
  | .integer i => .integer i
  | .float f => .float f
  | .string s => .string s

/-- `Value::from_expression`; the `unreachable!` arm is modelled as
`none`. -/
def fromExpression : Expression → Option Value
  | .consts c => some (fromConsts c)
  | .field _ => none
  | .operation _ => none
  | .function _ _ => none

/-! ## Planner scan construction (src/sql/plan/planner.rs, mod.rs) -/

/-- `plan::Node` (`plan/mod.rs`). -/
inductive Node where
  | createTable (schema : Table)
  | dropTable (tableName : String)
  | insert (tableName : String) (columns : List String)
      (values : List (List Expression))
  | scan (tableName : String) (filter : Option Expression)
  | update (tableName : String) (source : Node) (columns : List (String × Expression))
  | delete (tableName : String) (source : Node)
  | order (source : Node) (orderBy : List (String × OrderDirection))
  | limit (source : Node) (n : Nat)
  | offset (source : Node) (n : Nat)
  | projection (source : Node) (exprs : List (Expression × Option String))
  | nestLoopJoin (l r : Node) (predicate : Option Expression) (outer : Bool)
  | aggregate (source : Node) (exprs : List (Expression × Option String))
      (groupBy : Option Expression)
  | filter (source : Node) (predicate : Expression)
  | indexScan (tableName field : String) (value : Value)
  | primaryKeyScan (tableName : String) (value : Value)
  | hashJoin (l r : Node) (predicate : Option Expression) (outer : Bool)

/-- `Planner::parse_scan_filter` applied to a bare expression; the
`unwrap()` panics on the recursive results are `panicOOB`.  Note the
`Field` arm pairs the name with `Value::Null` and the `Consts` arm pairs
the empty string with the value, exactly as in the source. -/
def parseScanFilterE : Expression → RRes (Option (String × Value))
  | .field f => .ok (some (f, .null))
  | .consts c => .ok (some ("", fromConsts c))
  | .operation (.equal l r) =>
    match parseScanFilterE l, parseScanFilterE r with
    | .ok (some lp), .ok (some rp) => .ok (some (lp.1, rp.2))
    | .ok none, _ => .error .panicOOB
    | _, .ok none => .error .panicOOB
    | .error e, _ => .error e
    | _, .error e => .error e
  | .operation (.greaterThan _ _) => .ok none
  | .operation (.lessThan _ _) => .ok none
  | .function _ _ => .ok none

/-- `Planner::parse_scan_filter`. -/
def parseScanFilter : Option Expression → RRes (Option (String × Value))
  | none => .ok none
  | some e => parseScanFilterE e

/-- `Planner::build_scan`, with the transaction's `must_get_table`
abstracted as a lookup function.  It produces `IndexScan` when some
column named like the filter field has `index = true`, and otherwise
`Scan`; no arm produces `PrimaryKeyScan`. -/
def buildScan (getTable : String → RRes Table) (tableName : String)
    (filter : Option Expression) : RRes Node :=
  match parseScanFilter filter with
  | .error e => .error e
  | .ok none => .ok (.scan tableName filter)
  | .ok (some fv) =>
    match getTable tableName with
    | .error e => .error e
    | .ok table =>
      if table.columns.any (fun c => c.name == fv.1 && c.index) then
        .ok (.indexScan tableName fv.1 fv.2)
      else
        .ok (.scan tableName filter)

/-! ## The SQL lexer (src/sql/parser/lexer.rs) -/

/-- `lexer::Keyword`. -/
inductive Keyword where
  | kwCreate | kwTable | kwInt | kwInteger | kwBoolean | kwBool | kwString
  | kwText | kwVarchar | kwFloat | kwDouble | kwSelect | kwFrom | kwInsert
  | kwInto | kwValues | kwTrue | kwFalse | kwDefault | kwNot | kwNull
  | kwPrimary | kwKey | kwUpdate | kwSet | kwWhere | kwDelete | kwOrder
  | kwBy | kwAsc | kwDesc | kwLimit | kwOffset | kwAs | kwCross | kwJoin
  | kwLeft | kwRight | kwOn | kwGroup
deriving DecidableEq, Repr

/-- `Keyword::from_str`: uppercase the identifier and match. -/
def keywordFromStr (ident : List Char) : Option Keyword :=
  match String.mk (ident.map Char.toUpper) with
  | "CREATE" => some .kwCreate
  | "TABLE" => some .kwTable
  | "INT" => some .kwInt
  | "INTEGER" => some .kwInteger
  | "BOOLEAN" => some .kwBoolean
  | "BOOL" => some .kwBool
  | "STRING" => some .kwString
  | "TEXT" => some .kwText
  | "VARCHAR" => some .kwVarchar
  | "FLOAT" => some .kwFloat
  | "DOUBLE" => some .kwDouble
  | "SELECT" => some .kwSelect
  | "FROM" => some .kwFrom
  | "INSERT" => some .kwInsert
  | "INTO" => some .kwInto
  | "VALUES" => some .kwValues
  | "TRUE" => some .kwTrue
  | "FALSE" => some .kwFalse
  | "DEFAULT" => some .kwDefault
  | "NOT" => some .kwNot
  | "NULL" => some .kwNull
  | "PRIMARY" => some .kwPrimary
  | "KEY" => some .kwKey
  | "UPDATE" => some .kwUpdate
  | "SET" => some .kwSet
  | "WHERE" => some .kwWhere
  | "DELETE" => some .kwDelete
  | "ORDER" => some .kwOrder
  | "BY" => some .kwBy
  | "ASC" => some .kwAsc
  | "DESC" => some .kwDesc
  | "LIMIT" => some .kwLimit
  | "OFFSET" => some .kwOffset
  | "AS" => some .kwAs
  | "CROSS" => some .kwCross
  | "JOIN" => some .kwJoin
  | "LEFT" => some .kwLeft
  | "RIGHT" => some .kwRight
  | "ON" => some .kwOn
  | "GROUP" => some .kwGroup
  | _ => none

/-- `lexer::Token`.  There is no `<` or `>` token. -/
inductive Token where
  | keyword (k : Keyword)
  | ident (s : List Char)
  | string (s : List Char)
  | number (s : List Char)
  | openParen
  | closeParen
  | comma
  | semicolon
  | asterisk
  | plus
  | minus
  | slash
  | equal
deriving DecidableEq, Repr

/-- `Lexer::scan_symbol`: the full punctuation map of the lexer — note
`<` and `>` are absent. -/
def scanSymbol : Char → Option Token
  | '*' => some .asterisk
  | '(' => some .openParen
  | ')' => some .closeParen
  | ',' => some .comma
  | ';' => some .semicolon
  | '+' => some .plus
  | '-' => some .minus
  | '/' => some .slash
  | '=' => some .equal
  | _ => none

/-- The string-scanning loop of `Lexer::scan_string`: characters up to
the closing quote, `none` when the literal is unterminated. -/
def takeStr : List Char → Option (List Char × List Char)
  | [] => none
  | '\'' :: r => some ([], r)
  | c :: r =>
    match takeStr r with
    | some p => some (c :: p.1, p.2)
    | none => none

/-- `Lexer::scan_number`: digits, then an optional `.` fraction. -/
def scanNumber (cs : List Char) : List Char × List Char :=
  match cs.dropWhile Char.isDigit with
  | '.' :: rest2 =>
    (cs.takeWhile Char.isDigit ++ '.' :: rest2.takeWhile Char.isDigit,
      rest2.dropWhile Char.isDigit)
  | _ => (cs.takeWhile Char.isDigit, cs.dropWhile Char.isDigit)

/-- `Lexer::scan_ident` on `c :: rest` (first char alphabetic):
alphanumeric-or-underscore continuation, keyword recognition, lowercase
for plain identifiers. -/
def scanIdent (c : Char) (rest : List Char) : Token × List Char :=
  let value := c :: rest.takeWhile (fun x => x.isAlphanum || x = '_')
  let rest' := rest.dropWhile (fun x => x.isAlphanum || x = '_')
  match keywordFromStr value with
  | some kw => (.keyword kw, rest')
  | none => (.ident (value.map Char.toLower), rest')

/-- The lexer's tokenize-everything loop (the `Iterator` repeatedly
calling `scan`): erase whitespace, dispatch on the first character, and
turn `scan_symbol`'s `None` into the iterator's `Unexpected character`
parse error.  `fuel` bounds the recursion; any `fuel >= cs.length + 1`
behaves identically. -/
def tokenize : Nat → List Char → RRes (List Token)
  | 0, _ => .error .internal
  | fuel + 1, cs =>
    match cs.dropWhile Char.isWhitespace with
    | [] => .ok []
    | c :: rest =>
      if c = '\'' then
        match takeStr rest with
        | none => .error .parse
        | some (s, r) =>
          match tokenize fuel r with
          | .ok ts => .ok (.string s :: ts)
          | .error e => .error e
      else if c.isDigit then
        match scanNumber (c :: rest) with
        | (num, r) =>
          match tokenize fuel r with
          | .ok ts => .ok (.number num :: ts)
          | .error e => .error e
      else if c.isAlpha then
        match scanIdent c rest with
        | (t, r) =>
          match tokenize fuel r with
          | .ok ts => .ok (t :: ts)
          | .error e => .error e
      else
        match scanSymbol c with
        | some t =>
          match tokenize fuel rest with
          | .ok ts => .ok (t :: ts)
          | .error e => .error e
        | none => .error .parse

/-! ## The SQL-over-MVCC storage layer (src/sql/engine/kv.rs,
src/sql/executor/mutation.rs) -/

/-- `row[i]`: positional indexing; out of bounds is a Rust panic. -/
def rowIdx (row : List Value) (i : Nat) : RRes Value :=
  match row[i]? with
  | some v => .ok v
  | none => .error .panicOOB

/-- Per-column acceptance in the validation loop of
`KVTransaction::create_row`: a null value is accepted iff the column is
nullable, a non-null value iff its datatype matches the column's. -/
def colOk (col : Column) (v : Value) : Bool :=
  match v.datatype with
  | none => col.nullable
  | some dt => dt == col.datatype

/-- The validation loop of `KVTransaction::create_row`
(`for (i, col) in table.columns.iter().enumerate()` matching on
`row[i].datatype()`): a failing `colOk` is the `Internal` error;
`row[i]` panics when the row is shorter than the column list. -/
def validateLoop (row : List Value) : List Column → Nat → RRes Unit
  | [], _ => .ok ()
  | col :: rest, i =>
    match rowIdx row i with
    | .error e => .error e
    | .ok v =>
      if colOk col v then validateLoop row rest (i + 1)
      else .error .internal

/-- `Table::get_primary_key`: `position` + `.expect(...)` (panic when no
primary-key column) + `row[pos]` (panic when the row is short). -/
def getPrimaryKey (T : Table) (row : List Value) : RRes Value :=
  match T.columns.findIdx? (fun c => c.primaryKey) with
  | none => .error .panicOOB
  | some pos => rowIdx row pos

/-- The padding loop of `pad_row`: default values for the columns beyond
the supplied row, `Internal` when a column has no default. -/
def padLoop : List Column → RRes (List Value)
  | [] => .ok []
  | c :: rest =>
    match c.dflt with
    | some d =>
      match padLoop rest with
      | .ok ds => .ok (d :: ds)
      | .error e => .error e
    | none => .error .internal

/-- `pad_row`. -/
def padRow (T : Table) (row : List Value) : RRes (List Value) :=
  match padLoop (T.columns.drop row.length) with
  | .ok ds => .ok (row ++ ds)
  | .error e => .error e

/-- Lookup in the `make_row` input map; the `HashMap` built by repeated
`insert` is modelled as the reversed zip (last insert wins). -/
def lookupName (n : String) : List (String × Value) → Option Value
  | [] => none
  | (n', v) :: t => if n' == n then some v else lookupName n t

/-- The output loop of `make_row`: per table column, the supplied value,
else the column default, else `Internal`. -/
def makeLoop (m : List (String × Value)) : List Column → RRes (List Value)
  | [] => .ok []
  | c :: rest =>
    match lookupName c.name m with
    | some v =>
      match makeLoop m rest with
      | .ok ds => .ok (v :: ds)
      | .error e => .error e
    | none =>
      match c.dflt with
      | some d =>
        match makeLoop m rest with
        | .ok ds => .ok (d :: ds)
        | .error e => .error e
      | none => .error .internal

/-- `make_row`. -/
def makeRow (T : Table) (cols : List String) (vals : List Value) : RRes (List Value) :=
  if cols.length ≠ vals.length then .error .internal
  else makeLoop (List.zip cols vals).reverse T.columns

/-- Byte content of an ASCII string (table and column names), by code
points. -/
def strBytes (s : String) : Bytes := s.toList.map Char.toNat

/-- `i64::to_be_bytes`: big-endian two's complement. -/
def be64i (i : Int) : Bytes := be64 (i.emod (2 ^ 64)).toNat

/-- `serialize_key` of a `Value` (nested in `Key::Row`/`Key::Index`):
variant-index byte then the payload; `serialize_f64` is `todo!()` in the
source, a panic. -/
def encValue : Value → RRes Bytes
  | .null => .ok [0]
  | .boolean b => .ok [1, if b then 1 else 0]
  | .integer i => .ok (2 :: be64i i)
  | .float _ => .error .panicOOB
  | .string s => .ok (4 :: strBytes s)

/-- `Key::Row(table_name, pk).encode()`: variant byte 1, the table name
via `serialize_str` (raw bytes, no terminator), then the primary-key
value. -/
def encKeyRow (tableName : String) (pk : Value) : RRes Bytes :=
  match encValue pk with
  | .ok vb => .ok (1 :: (strBytes tableName ++ vb))
  | .error e => .error e

/-- `Key::Index(table_name, col_name, value).encode()`. -/
def encKeyIndex (tableName colName : String) (v : Value) : RRes Bytes :=
  match encValue v with
  | .ok vb => .ok (2 :: (strBytes tableName ++ strBytes colName ++ vb))
  | .error e => .error e

/-- Stand-in for the bincode payload of a stored `Value`; the engine
claims only ever treat row payloads as opaque bytes. -/
def valBytes : Value → Bytes
  | .null => [0]
  | .boolean b => [1, if b then 1 else 0]
  | .integer i => 2 :: be64i i
  | .float bits => 3 :: be64 bits
  | .string s => 4 :: (escChunks (strBytes s) ++ [0, 0])

/-- Stand-in for `bincode::serialize(&row)`: opaque row payload bytes. -/
def rowBytes (row : List Value) : Bytes :=
  (row.map valBytes).foldr (fun a b => a ++ b) []

/-- Stand-in for deserialize-insert-serialize of the `HashSet<Value>`
index payload: the claims never inspect index payloads. -/
def indexInsert (pk : Value) (cur : Option Bytes) : Bytes :=
  valBytes pk ++ cur.getD []

/-- The index-maintenance loop of `create_row` over the columns with
`index = true`: load the index set at `Index(table, col, row[i])`, insert
the primary key, save it back. -/
def idxLoop (ts : TxnState) (T : Table) (pk : Value) (row : List Value) :
    List (Nat × Column) → Engine → RRes Engine
  | [], E => .ok E
  | (i, col) :: rest, E =>
    match rowIdx row i with
    | .error e => .error e
    | .ok v =>
      match encKeyIndex T.name col.name v with
      | .error e => .error e
      | .ok ikey =>
        match mvccGet ts E ikey with
        | .error e => .error e
        | .ok cur =>
          match mvccSet ts E ikey (indexInsert pk cur) with
          | .error e => .error e
          | .ok E' => idxLoop ts T pk row rest E'

/-- The columns with `index = true`, with their positions. -/
def indexCols (T : Table) : List (Nat × Column) :=
  T.columns.enum.filter (fun p => p.2.index)

/-- `KVTransaction::create_row`: validate the row positionally, fetch the
primary key, reject a duplicate visible through the transaction's own
`get` of `Key::Row(table, pk)`, store the row, and maintain indexes. -/
def createRow (ts : TxnState) (E : Engine) (T : Table) (row : List Value) :
    RRes Engine :=
  match validateLoop row T.columns 0 with
  | .error e => .error e
  | .ok _ =>
    match getPrimaryKey T row with
    | .error e => .error e
    | .ok pk =>
      match encKeyRow T.name pk with
      | .error e => .error e
      | .ok id =>
        match mvccGet ts E id with
        | .error e => .error e
        | .ok (some _) => .error .internal
        | .ok none =>
          match mvccSet ts E id (rowBytes row) with
          | .error e => .error e
          | .ok E1 => idxLoop ts T pk row (indexCols T) E1

/-! ## C3: duplicate primary keys within one transaction -/

/-- A one-integer-column table (column `a` is the primary key). -/
def c3Table : Table := ⟨"t", [⟨"a", .integer, false, none, true, false⟩]⟩

/-- A row for `c3Table` with primary key 1. -/
def c3Row : List Value := [.integer 1]

/-- The engine produced by the first `create_row` of `c3Row` in a fresh
transaction at version 1 with no concurrent transactions. -/
def c3E1 : Engine :=
  match createRow ⟨1, []⟩ [] c3Table c3Row with
  | .ok e => e
  | .error _ => []

/-- The engine produced by the second `create_row` of the same row in the
same transaction (which succeeds rather than failing). -/
def c3E2 : Engine :=
  match createRow ⟨1, []⟩ c3E1 c3Table c3Row with
  | .ok e => e
  | .error _ => []

/-- The encoded `Key::Row` id of `c3Row` in `c3Table`. -/
def c3Id : Bytes :=
  match encKeyRow c3Table.name (.integer 1) with
  | .ok b => b
  | .error _ => []

/-! ## C9: session transaction handling (src/sql/engine/mod.rs 97-141) -/

/-- `ResultSet`, restricted to the variants `Session::execute` produces or
forwards. -/
inductive ResultSet where
  | begin (version : Nat)
  | commit (version : Nat)
  | rollback (version : Nat)
  | createTable (tableName : String)
  | insert (count : Nat)
  | scan (columns : List String) (rows : List (List Value))
  | update (count : Nat)
  | delete (count : Nat)
deriving DecidableEq, Repr

/-- Whether a statement is `BEGIN`/`COMMIT`/`ROLLBACK`, the arms
`Session::execute` matches before its two catch-alls. -/
def isTxnControl : Statement → Bool
  | .begin => true
  | .commit => true
  | .rollback => true
  | _ => false

/-- The implicit-transaction catch-all of `Session::execute`
(`stmt => { let mut txn = self.engin.begin()?; match
Plan::build(stmt, ..)?.execute(..) { Ok => commit, Err => rollback and
propagate } }`); a planning error propagates via `?` before the
commit/rollback match.  `build` stands for `Plan::build`, `run` for
`Plan::execute`; the engine is threaded explicitly, and `commit` is
infallible in the engine model. -/
def implicitExec (build : Statement → TxnState → Engine → RRes Node)
    (run : Node → TxnState → Engine → Engine × RRes ResultSet)
    (stmt : Statement) (E : Engine) :
    RRes ResultSet × Option TxnState × Engine :=
  match mvccBegin E with
  | .error e => (.error e, none, E)
  | .ok (ts, E1) =>
    match build stmt ts E1 with
    | .error e => (.error e, none, E1)
    | .ok p =>
      match run p ts E1 with
      | (E2, .ok r) => (.ok r, none, mvccCommit ts E2)
      | (E2, .error err) =>
        match mvccRollback ts E2 with
        | .ok E3 => (.error err, none, E3)
        | .error e => (.error e, none, E2)

/-- The explicit-transaction catch-all of `Session::execute`
(`stmt if self.txn.is_some() => Plan::build(stmt, txn)?.execute(txn)`):
execute against the stored transaction, neither committing nor rolling
back, keeping the transaction stored. -/
def explicitExec (build : Statement → TxnState → Engine → RRes Node)
    (run : Node → TxnState → Engine → Engine × RRes ResultSet)
    (stmt : Statement) (ts : TxnState) (E : Engine) :
    RRes ResultSet × Option TxnState × Engine :=
  match build stmt ts E with
  | .error e => (.error e, some ts, E)
  | .ok p =>
    match run p ts E with
    | (E', r) => (r, some ts, E')

/-- `Session::execute` (lines 97-141): its result, the session's stored
transaction afterwards (`self.txn`), and the engine afterwards.  `BEGIN`
inside a transaction and `COMMIT`/`ROLLBACK` outside one are `Internal`
errors; `COMMIT`/`ROLLBACK` `take()` the stored transaction before the
fallible call, so it is gone even when that call errors. -/
def sessionExecute (build : Statement → TxnState → Engine → RRes Node)
    (run : Node → TxnState → Engine → Engine × RRes ResultSet)
    (stmt : Statement) (sess : Option TxnState) (E : Engine) :
    RRes ResultSet × Option TxnState × Engine :=
  match stmt, sess with
  | .begin, some ts => (.error .internal, some ts, E)
  | .commit, none => (.error .internal, none, E)
  | .rollback, none => (.error .internal, none, E)
  | .begin, none =>
    match mvccBegin E with
    | .ok (ts, E') => (.ok (.begin ts.version), some ts, E')
    | .error e => (.error e, none, E)
  | .commit, some ts => (.ok (.commit ts.version), none, mvccCommit ts E)
  | .rollback, some ts =>
    match mvccRollback ts E with
    | .ok E' => (.ok (.rollback ts.version), none, E')
    | .error e => (.error e, none, E)
  | stmt, some ts => explicitExec build run stmt ts E
  | stmt, none => implicitExec build run stmt E

/-- A `Plan::build` stand-in for exercising the session: always plans a
full scan of table `t`. -/
def c9Build : Statement → TxnState → Engine → RRes Node :=
  fun _ _ _ => .ok (.scan "t" none)

/-- A `Plan::execute` stand-in: always reports zero deleted rows, leaving
the engine unchanged. -/
def c9Run : Node → TxnState → Engine → Engine × RRes ResultSet :=
  fun _ _ E => (E, .ok (.delete 0))

/-- The engine after `begin` on an empty store. -/
def c9E1 : Engine :=
  match mvccBegin [] with
  | .ok p => p.2
  | .error _ => []

theorem bytesCmp_self (a : Bytes) : bytesCmp a a = .eq := by
  induction a with
  | nil => rfl
  | cons x xs ih => simp [bytesCmp, ih]

theorem bytesCmp_eq_iff : ∀ {a b : Bytes}, bytesCmp a b = .eq ↔ a = b := by
  intro a
  induction a with
  | nil => intro b; cases b <;> simp [bytesCmp]
  | cons x xs ih =>
    intro b
    cases b with
    | nil => simp [bytesCmp]
    | cons y ys =>
      by_cases h1 : x < y
      · simp [bytesCmp, h1]; omega
      · by_cases h2 : y < x
        · simp [bytesCmp, h1, h2]; omega
        · have hxy : x = y := by omega
          simp [bytesCmp, h1, h2, hxy, ih]

theorem bytesCmp_swap : ∀ a b : Bytes, bytesCmp b a = (bytesCmp a b).swap := by
  intro a
  induction a with
  | nil => intro b; cases b <;> rfl
  | cons x xs ih =>
    intro b
    cases b with
    | nil => rfl
    | cons y ys =>
      by_cases h1 : x < y
      · have h2 : ¬ y < x := by omega
        simp [bytesCmp, h1, h2, Ordering.swap]
      · by_cases h2 : y < x
        · simp [bytesCmp, h1, h2, Ordering.swap]
        · simp [bytesCmp, h1, h2, ih]

theorem bytesCmp_append_left :
    ∀ (c a b : Bytes), bytesCmp (c ++ a) (c ++ b) = bytesCmp a b := by
  intro c
  induction c with
  | nil => intro a b; rfl
  | cons x xs ih => intro a b; simp [bytesCmp, ih]

theorem bytesCmp_lt_trans :
    ∀ {a b c : Bytes}, bytesCmp a b = .lt → bytesCmp b c = .lt → bytesCmp a c = .lt := by
  intro a
  induction a with
  | nil =>
    intro b c hab hbc
    cases b with
    | nil => exact hbc
    | cons y ys => cases c with
      | nil => simp [bytesCmp] at hbc
      | cons z zs => rfl
  | cons x xs ih =>
    intro b c hab hbc
    cases b with
    | nil => simp [bytesCmp] at hab
    | cons y ys =>
      cases c with
      | nil => simp [bytesCmp] at hbc
      | cons z zs =>
        simp only [bytesCmp] at hab hbc ⊢
        by_cases hxy : x < y
        · by_cases hyz : y < z
          · have : x < z := by omega
            simp [this]
          · by_cases hzy : z < y
            · simp [hyz, hzy] at hbc
            · have : x < z := by omega
              simp [this]
        · by_cases hyx : y < x
          · simp [hxy, hyx] at hab
          · have hxy' : x = y := by omega
            by_cases hyz : y < z
            · have : x < z := by omega
              simp [this]
            · by_cases hzy : z < y
              · simp [hyz, hzy] at hbc
              · have hyz' : y = z := by omega
                have h1 : ¬ x < z := by omega
                have h2 : ¬ z < x := by omega
                simp [hxy, hyx] at hab
                simp [hyz, hzy] at hbc
                simp [h1, h2]
                exact ih hab hbc

theorem escChunks_append (a b : Bytes) :
    escChunks (a ++ b) = escChunks a ++ escChunks b := by
  induction a with
  | nil => rfl
  | cons x xs ih => simp [escChunks, ih]

theorem beDigits_length (n v : Nat) : (beDigits n v).length = n := by
  induction n generalizing v with
  | zero => rfl
  | succ m ih => simp [beDigits, ih]

theorem beVal_append_last (xs : Bytes) (d : Nat) :
    beVal (xs ++ [d]) = beVal xs * 256 + d := by
  simp [beVal, List.foldl_append]

theorem beVal_beDigits (n v : Nat) (h : v < 256 ^ n) : beVal (beDigits n v) = v := by
  induction n generalizing v with
  | zero =>
    interval_cases v
    rfl
  | succ m ih =>
    have hdiv : v / 256 < 256 ^ m := by
      rw [Nat.div_lt_iff_lt_mul (by omega : 0 < 256)]
      calc v < 256 ^ (m + 1) := h
        _ = 256 ^ m * 256 := by ring
    have := ih (v / 256) hdiv
    rw [beDigits, beVal_append_last, this]
    omega

theorem bytesCmp_append_last (x y : Nat) :
    ∀ (a b : Bytes), a.length = b.length →
    bytesCmp (a ++ [x]) (b ++ [y]) =
      match bytesCmp a b with
      | .eq => if x < y then .lt else if y < x then .gt else .eq
      | o => o := by
  intro a
  induction a with
  | nil =>
    intro b hb
    have : b = [] := by
      cases b with
      | nil => rfl
      | cons _ _ => simp at hb
    subst this
    simp [bytesCmp]
  | cons u us ih =>
    intro b hb
    cases b with
    | nil => simp at hb
    | cons w ws =>
      simp only [List.length_cons, Nat.succ_inj] at hb
      by_cases h1 : u < w
      · simp [bytesCmp, h1]
      · by_cases h2 : w < u
        · simp [bytesCmp, h1, h2]
        · simp [bytesCmp, h1, h2, ih ws hb]

theorem beDigits_mono (n : Nat) :
    ∀ v w : Nat, v < w → w < 256 ^ n →
    bytesCmp (beDigits n v) (beDigits n w) = .lt := by
  induction n with
  | zero => intro v w hvw hw; omega
  | succ m ih =>
    intro v w hvw hw
    have hlen : (beDigits m (v / 256)).length = (beDigits m (w / 256)).length := by
      simp [beDigits_length]
    rw [beDigits, beDigits, bytesCmp_append_last _ _ _ _ hlen]
    have hwdiv : w / 256 < 256 ^ m := by
      rw [Nat.div_lt_iff_lt_mul (by omega : 0 < 256)]
      calc w < 256 ^ (m + 1) := hw
        _ = 256 ^ m * 256 := by ring
    rcases Nat.lt_or_ge (v / 256) (w / 256) with hdl | hdg
    · rw [ih (v / 256) (w / 256) hdl hwdiv]
    · have hde : v / 256 = w / 256 := by
        have := Nat.div_le_div_right (c := 256) (Nat.le_of_lt hvw)
        omega
      rw [hde, bytesCmp_self]
      have hv := Nat.div_add_mod v 256
      have hw' := Nat.div_add_mod w 256
      have hmod : v % 256 < w % 256 := by
        rw [hde] at hv
        omega
      simp [hmod]

theorem be64_inj {v w : Nat} (hv : v < 2 ^ 64) (hw : w < 2 ^ 64)
    (h : be64 v = be64 w) : v = w := by
  have h1 : beVal (be64 v) = beVal (be64 w) := by rw [h]
  have e1 : beVal (be64 v) = v := beVal_beDigits 8 v (by norm_num at hv ⊢; omega)
  have e2 : beVal (be64 w) = w := beVal_beDigits 8 w (by norm_num at hw ⊢; omega)
  omega

theorem unesc_zz (r : Bytes) : unesc (0 :: 0 :: r) = some ([], r) := rfl

theorem unesc_zf (r : Bytes) :
    unesc (0 :: 255 :: r) = (unesc r).map (fun p => (0 :: p.1, p.2)) := rfl

theorem unesc_pos (b : Nat) (r : Bytes) (hb : ¬ b = 0) :
    unesc (b :: r) = (unesc r).map (fun p => (b :: p.1, p.2)) := by
  rw [unesc.eq_def]
  simp [hb]

theorem unesc_escChunks :
    ∀ (k rest : Bytes), unesc (escChunks k ++ (0 :: 0 :: rest)) = some (k, rest) := by
  intro k
  induction k with
  | nil => intro rest; simp [escChunks, unesc_zz]
  | cons b bs ih =>
    intro rest
    by_cases hb : b = 0
    · subst hb
      simp [escChunks, chunk, unesc_zf, ih]
    · simp [escChunks, chunk, hb, unesc_pos b _ hb, ih]

theorem unesc_encBytes (k rest : Bytes) : unesc (encBytes k ++ rest) = some (k, rest) := by
  have h := unesc_escChunks k rest
  simpa [encBytes] using h

theorem take8_be64 (v : Nat) (rest : Bytes) (hv : v < 2 ^ 64) :
    take8 (be64 v ++ rest) = some (v, rest) := by
  have hlen : (be64 v).length = 8 := beDigits_length 8 v
  have htake : (be64 v ++ rest).take 8 = be64 v := by
    rw [← hlen]; exact List.take_left _ _
  have hdrop : (be64 v ++ rest).drop 8 = rest := by
    rw [← hlen]; exact List.drop_left _ _
  have hle : 8 ≤ (be64 v ++ rest).length := by simp [hlen]
  have hval : beVal (be64 v) = v := beVal_beDigits 8 v (by norm_num at hv ⊢; omega)
  simp only [take8, hle, if_pos, htake, hdrop, hval]

theorem decode_encodeMvccKey (k : MvccKey) (h : keyWf k) :
    decodeMvccKey (encodeMvccKey k) = some k := by
  cases k with
  | nextVersion => rfl
  | txnActive v =>
    simp only [keyWf] at h
    simp [encodeMvccKey, decodeMvccKey]
    have := take8_be64 v [] h
    simp at this
    simp [this]
  | txnWrite v k =>
    simp only [keyWf] at h
    have h1 : unesc (encBytes k) = some (k, []) := by
      have := unesc_encBytes k []
      simpa using this
    simp [encodeMvccKey, decodeMvccKey, take8_be64 v (encBytes k) h, h1]
  | version k v =>
    simp only [keyWf] at h
    have h1 : unesc (encBytes k ++ be64 v) = some (k, be64 v) := unesc_encBytes k (be64 v)
    have h2 := take8_be64 v [] h
    simp at h2
    simp [encodeMvccKey, decodeMvccKey, h1, h2]

/-! ## Structure of escaped byte strings under the prefix order -/

theorem escChunks_nil : escChunks [] = [] := rfl

theorem escChunks_cons_zero (p : Bytes) :
    escChunks (0 :: p) = 0 :: 255 :: escChunks p := by
  simp [escChunks, chunk]

theorem escChunks_cons_pos (a : Nat) (p : Bytes) (ha : ¬ a = 0) :
    escChunks (a :: p) = a :: escChunks p := by
  simp [escChunks, chunk, ha]

theorem escChunks_pfx :
    ∀ (p k rest : Bytes), escChunks p <+: escChunks k ++ (0 :: 0 :: rest) → p <+: k := by
  intro p
  induction p with
  | nil => intro k rest _; exact List.nil_prefix
  | cons a p' ih =>
    intro k rest h
    cases k with
    | nil =>
      exfalso
      by_cases ha : a = 0
      · subst ha
        rw [escChunks_cons_zero] at h
        simp [escChunks, List.cons_prefix_cons] at h
      · rw [escChunks_cons_pos a p' ha] at h
        simp [escChunks, List.cons_prefix_cons] at h
        exact ha h.1
    | cons b k' =>
      by_cases ha : a = 0
      · by_cases hb : b = 0
        · subst ha; subst hb
          rw [escChunks_cons_zero, escChunks_cons_zero] at h
          simp only [List.cons_append, List.cons_prefix_cons, true_and] at h
          exact List.cons_prefix_cons.mpr ⟨rfl, ih k' rest h⟩
        · exfalso
          subst ha
          rw [escChunks_cons_zero, escChunks_cons_pos b k' hb] at h
          simp only [List.cons_append, List.cons_prefix_cons] at h
          exact hb h.1.symm
      · by_cases hb : b = 0
        · exfalso
          subst hb
          rw [escChunks_cons_pos a p' ha, escChunks_cons_zero] at h
          simp only [List.cons_append, List.cons_prefix_cons] at h
          exact ha h.1
        · rw [escChunks_cons_pos a p' ha, escChunks_cons_pos b k' hb] at h
          simp only [List.cons_append, List.cons_prefix_cons] at h
          exact List.cons_prefix_cons.mpr ⟨h.1, ih k' rest h.2⟩

theorem encBytes_unfold (p : Bytes) :
    encBytes p ++ [] = encBytes p := by simp

theorem encBytes_pfx_eq :
    ∀ (p k z : Bytes), encBytes p <+: encBytes k ++ z → p = k := by
  intro p
  induction p with
  | nil =>
    intro k z h
    cases k with
    | nil => rfl
    | cons b k' =>
      exfalso
      by_cases hb : b = 0
      · subst hb
        simp only [encBytes, escChunks_nil, escChunks_cons_zero, List.nil_append,
          List.cons_append, List.append_assoc, List.cons_prefix_cons] at h
        simp at h
      · simp only [encBytes, escChunks_nil, escChunks_cons_pos b k' hb, List.nil_append,
          List.cons_append, List.append_assoc, List.cons_prefix_cons] at h
        exact hb h.1.symm
  | cons a p' ih =>
    intro k z h
    cases k with
    | nil =>
      exfalso
      by_cases ha : a = 0
      · subst ha
        simp only [encBytes, escChunks_nil, escChunks_cons_zero, List.nil_append,
          List.cons_append, List.append_assoc, List.cons_prefix_cons] at h
        simp at h
      · simp only [encBytes, escChunks_nil, escChunks_cons_pos a p' ha, List.nil_append,
          List.cons_append, List.append_assoc, List.cons_prefix_cons] at h
        exact ha h.1
    | cons b k' =>
      have hstep : ∀ (m : Bytes) (w : Bytes), encBytes m ++ w = escChunks m ++ ([0, 0] ++ w) := by
        intro m w; simp [encBytes]
      by_cases ha : a = 0
      · by_cases hb : b = 0
        · subst ha; subst hb
          rw [encBytes, encBytes, escChunks_cons_zero, escChunks_cons_zero] at h
          simp only [List.cons_append, List.cons_prefix_cons, true_and] at h
          have h' : encBytes p' <+: encBytes k' ++ z := by
            rw [encBytes, encBytes]
            simpa using h
          rw [ih k' z h']
        · exfalso
          subst ha
          rw [encBytes, encBytes, escChunks_cons_zero, escChunks_cons_pos b k' hb] at h
          simp only [List.cons_append, List.cons_prefix_cons] at h
          exact hb h.1.symm
      · by_cases hb : b = 0
        · exfalso
          subst hb
          rw [encBytes, encBytes, escChunks_cons_pos a p' ha, escChunks_cons_zero] at h
          simp only [List.cons_append, List.cons_prefix_cons] at h
          exact ha h.1
        · rw [encBytes, encBytes, escChunks_cons_pos a p' ha, escChunks_cons_pos b k' hb] at h
          simp only [List.cons_append, List.cons_prefix_cons] at h
          have h' : encBytes p' <+: encBytes k' ++ z := by
            rw [encBytes, encBytes]
            simpa using h.2
          rw [h.1, ih k' z h']

theorem bytesCmp_append_stable :
    ∀ (a b u v : Bytes), (∀ z, ¬ a <+: b ++ z) → (∀ z, ¬ b <+: a ++ z) →
    bytesCmp (a ++ u) (b ++ v) = bytesCmp a b := by
  intro a
  induction a with
  | nil =>
    intro b u v hab _
    exact absurd List.nil_prefix (hab v)
  | cons x xs ih =>
    intro b u v hab hba
    cases b with
    | nil => exact absurd List.nil_prefix (hba u)
    | cons y ys =>
      by_cases h1 : x < y
      · simp [bytesCmp, h1]
      · by_cases h2 : y < x
        · simp [bytesCmp, h1, h2]
        · have hxy : x = y := by omega
          subst hxy
          simp only [List.cons_append, bytesCmp, h1, h2, if_false]
          exact ih ys u v
            (fun z hz => hab z (by
              simpa [List.cons_prefix_cons] using hz))
            (fun z hz => hba z (by
              simpa [List.cons_prefix_cons] using hz))

theorem cmp_encVersion_same (K : Bytes) (x w : Nat) :
    bytesCmp (encodeMvccKey (.version K x)) (encodeMvccKey (.version K w)) =
      bytesCmp (be64 x) (be64 w) := by
  have h : ∀ v : Nat, encodeMvccKey (.version K v) = (3 :: encBytes K) ++ be64 v := by
    intro v; simp [encodeMvccKey]
  rw [h, h, bytesCmp_append_left]

theorem cmp_encVersion_ne (K k : Bytes) (x w : Nat) (hne : K ≠ k) :
    bytesCmp (encodeMvccKey (.version K x)) (encodeMvccKey (.version k w)) =
      bytesCmp (encBytes K) (encBytes k) := by
  have h : ∀ (m : Bytes) (v : Nat),
      encodeMvccKey (.version m v) = [3] ++ (encBytes m ++ be64 v) := by
    intro m v; simp [encodeMvccKey]
  rw [h, h, bytesCmp_append_left]
  exact bytesCmp_append_stable (encBytes K) (encBytes k) _ _
    (fun z hz => hne (encBytes_pfx_eq K k z hz))
    (fun z hz => hne (encBytes_pfx_eq k K z hz).symm)

theorem be64_cmp_lt_iff {x w : Nat} (hx : x < 2 ^ 64) (hw : w < 2 ^ 64) :
    bytesCmp (be64 x) (be64 w) = .lt ↔ x < w := by
  constructor
  · intro h
    rcases Nat.lt_trichotomy x w with hlt | heq | hgt
    · exact hlt
    · subst heq; rw [bytesCmp_self] at h; cases h
    · exfalso
      have := beDigits_mono 8 w x hgt (by norm_num at hx ⊢; omega)
      have hs := bytesCmp_swap (be64 x) (be64 w)
      rw [h] at hs
      simp [be64] at hs this
      rw [this] at hs
      cases hs
  · intro h
    exact beDigits_mono 8 x w h (by norm_num at hw ⊢; omega)

theorem be64_cmp_eq_iff {x w : Nat} (hx : x < 2 ^ 64) (hw : w < 2 ^ 64) :
    bytesCmp (be64 x) (be64 w) = .eq ↔ x = w := by
  rw [bytesCmp_eq_iff]
  exact ⟨fun h => be64_inj hx hw h, fun h => by rw [h]⟩

/-! ## Engine lemmas -/

theorem filter_engSet_false (p : Bytes → Bool) (k : Bytes) (v : VStore) :
    ∀ (e : Engine), p k = false →
    (engSet k v e).filter (fun kv => p kv.1) = e.filter (fun kv => p kv.1) := by
  intro e
  induction e with
  | nil => intro hk; simp [engSet, hk]
  | cons hd t ih =>
    intro hk
    obtain ⟨k', v'⟩ := hd
    simp only [engSet]
    rcases hcmp : bytesCmp k k' with _ | _ | _
    · simp [List.filter, hk]
    · have : k = k' := bytesCmp_eq_iff.mp hcmp
      subst this
      simp [List.filter, hk]
    · simp only [List.filter]
      rcases hpk' : p k' with _ | _
      · simpa [hpk'] using ih hk
      · simp [hpk', ih hk]

theorem engScan_engSet_out (lo hi k : Bytes) (v : VStore) (e : Engine)
    (hk : (bytesLe lo k && bytesLt k hi) = false) :
    engScan lo hi (engSet k v e) = engScan lo hi e :=
  filter_engSet_false (fun x => bytesLe lo x && bytesLt x hi) k v e hk

theorem bytesLe_three_two (a b : Bytes) : bytesLe (3 :: a) (2 :: b) = false := by
  have h : bytesCmp (3 :: a) (2 :: b) = .gt := by
    simp [bytesCmp]
  simp only [bytesLe, h]
  rfl

theorem bytesLt_self (a : Bytes) : bytesLt a a = false := by
  simp only [bytesLt, bytesCmp_self]
  rfl

theorem mvccWriteInner_ok_eq {ts : TxnState} {e : Engine} {key : Bytes}
    {value : Option Bytes} {e' : Engine}
    (h : mvccWriteInner ts e key value = .ok e') :
    e' = engSet (encodeMvccKey (.version key ts.version)) (.opt value)
      (engSet (encodeMvccKey (.txnWrite ts.version key)) .unit e) := by
  unfold mvccWriteInner at h
  rcases hc : mvccConflictCheck ts e key with err | u
  · rw [hc] at h; cases h
  · rw [hc] at h
    injection h with h
    exact h.symm

/-- Claim C1 counterexample scenario: transaction at version 1 over the
empty engine writes key `[107]`, then reads it back. -/
theorem c1_counterexample :
    (match mvccSet ⟨1, []⟩ [] [107] [97] with
      | .ok e => mvccGet ⟨1, []⟩ e [107]
      | .error err => .error err) = .ok none ∧
    (Except.ok none : RRes (Option Bytes)) ≠ .ok (some [97]) := by
  constructor
  · rfl
  · intro h
    injection h with h
    cases h

/-- C1 (amended): a write by a transaction is NOT visible to its own
reads.  `is_visible` holds iff the version is strictly below the
transaction's version and outside its active set (the transaction's own
version is never visible to itself), and `get` scans the half-open range
`Version(K, 0) .. Version(K, self.version)`, which excludes the
transaction's own version, so after a successful `set` the transaction's
`get` returns exactly what it returned before the write. -/
theorem c1_own_write_invisible :
    (∀ ts w, isVisible ts w = true ↔ (w ∉ ts.active ∧ w < ts.version)) ∧
    (∀ (ts : TxnState) (e : Engine) (key value : Bytes) (e' : Engine),
      mvccSet ts e key value = .ok e' →
      mvccGet ts e' key = mvccGet ts e key) := by
  constructor
  · intro ts w
    unfold isVisible
    rcases h : ts.active.contains w with _ | _
    · simp at h
      simp [h]
    · simp at h
      simp [h]
  · intro ts e key value e' h
    have he' := mvccWriteInner_ok_eq h
    subst he'
    unfold mvccGet
    have h1 : engScan (encodeMvccKey (.version key 0))
        (encodeMvccKey (.version key ts.version))
        (engSet (encodeMvccKey (.version key ts.version)) (.opt (some value))
          (engSet (encodeMvccKey (.txnWrite ts.version key)) .unit e)) =
        engScan (encodeMvccKey (.version key 0))
          (encodeMvccKey (.version key ts.version)) e := by
      rw [engScan_engSet_out, engScan_engSet_out]
      · simp only [encodeMvccKey]
        rw [bytesLe_three_two]
        rfl
      · rw [bytesLt_self]
        simp
    rw [h1]

/-- Witness for `c1_own_write_invisible` at transaction version 1, empty
engine, key `[107]`, value `[97]`. -/
theorem c1_own_write_invisible_witness :
    (isVisible ⟨1, []⟩ 0 = true ↔ (0 ∉ ([] : List Nat) ∧ 0 < 1)) ∧
    mvccGet ⟨1, []⟩
      [([2, 0, 0, 0, 0, 0, 0, 0, 1, 107, 0, 0], VStore.unit),
       ([3, 107, 0, 0, 0, 0, 0, 0, 0, 0, 0, 1], VStore.opt (some [97]))] [107] =
      mvccGet ⟨1, []⟩ [] [107] := by
  constructor
  · exact c1_own_write_invisible.1 ⟨1, []⟩ 0
  · exact c1_own_write_invisible.2 ⟨1, []⟩ [] [107] [97] _ (by rfl)

theorem encBytes_inj {a b : Bytes} (h : encBytes a = encBytes b) : a = b := by
  refine encBytes_pfx_eq a b [] ?_
  rw [List.append_nil, h]

theorem bytesLt_iff (a b : Bytes) : bytesLt a b = true ↔ bytesCmp a b = .lt := by
  unfold bytesLt
  cases h : bytesCmp a b <;> decide

theorem bytesLe_iff (a b : Bytes) : bytesLe a b = true ↔ bytesCmp a b ≠ .gt := by
  unfold bytesLe
  cases h : bytesCmp a b <;> decide

theorem engSorted_chain :
    ∀ (e : Engine), engSorted e = true → e.Chain' (fun a b => bytesLt a.1 b.1 = true) := by
  intro e
  induction e with
  | nil => intro _; exact List.chain'_nil
  | cons a t ih =>
    intro h
    cases t with
    | nil => simp
    | cons b t' =>
      simp only [engSorted, Bool.and_eq_true] at h
      exact List.chain'_cons.mpr ⟨h.1, ih h.2⟩

theorem engSorted_pairwise (e : Engine) (h : engSorted e = true) :
    e.Pairwise (fun a b => bytesLt a.1 b.1 = true) := by
  haveI : IsTrans (Bytes × VStore) (fun a b => bytesLt a.1 b.1 = true) := by
    constructor
    intro a b c hab hbc
    rw [bytesLt_iff] at hab hbc ⊢
    exact bytesCmp_lt_trans hab hbc
  exact List.chain'_iff_pairwise.mp (engSorted_chain e h)

theorem getLast_max_of_sorted :
    ∀ (l : List Nat), l.Pairwise (· < ·) → ∀ m, l.getLast? = some m →
    m ∈ l ∧ ∀ y ∈ l, y ≤ m := by
  intro l
  induction l with
  | nil => intro _ m hm; cases hm
  | cons x t ih =>
    intro hp m hm
    cases t with
    | nil =>
      simp at hm
      subst hm
      simp
    | cons b t' =>
      rw [List.getLast?_cons_cons] at hm
      have hp' := (List.pairwise_cons.mp hp).2
      have hx := (List.pairwise_cons.mp hp).1
      obtain ⟨hmem, hmax⟩ := ih hp' m hm
      refine ⟨List.mem_cons_of_mem x hmem, ?_⟩
      intro y hy
      rcases List.mem_cons.mp hy with hyx | hyt
      · subst hyx
        exact Nat.le_of_lt (Nat.lt_of_lt_of_le (hx _ hmem) (Nat.le_refl m))
      · exact hmax y hyt

theorem canonicalEntry_spec {e : Bytes × VStore} (h : canonicalEntry e = true) :
    ∃ k, decodeMvccKey e.1 = some k ∧ e.1 = encodeMvccKey k ∧ keyWfB k = true ∧
      valueKindOk k e.2 = true := by
  unfold canonicalEntry at h
  rcases hd : decodeMvccKey e.1 with _ | k
  · rw [hd] at h; cases h
  · rw [hd] at h
    simp only [Bool.and_eq_true, decide_eq_true_eq] at h
    exact ⟨k, rfl, h.1.1, h.1.2, h.2⟩

theorem bytesCmp_cons_lt {a b : Nat} (as bs : Bytes) (h : a < b) :
    bytesCmp (a :: as) (b :: bs) = .lt := by
  simp [bytesCmp, h]

theorem bytesCmp_cons_gt {a b : Nat} (as bs : Bytes) (h : b < a) :
    bytesCmp (a :: as) (b :: bs) = .gt := by
  have h2 : ¬ a < b := by omega
  simp [bytesCmp, h2, h]

theorem decode_tag_shape (t : Nat) (rest : Bytes) :
    (t = 0 ∨ t = 1 ∨ t = 2) →
    ∀ {k w}, decodeMvccKey (t :: rest) ≠ some (.version k w) := by
  intro ht k w h
  unfold decodeMvccKey at h
  rcases ht with h0 | h1 | h2
  · subst h0; simp at h
  · subst h1
    simp only [if_neg (by omega : ¬ (1 : Nat) = 0), if_pos rfl] at h
    rcases htp : take8 rest with _ | p <;> rw [htp] at h <;> simp at h
  · subst h2
    simp only [if_neg (by omega : ¬ (2 : Nat) = 0),
      if_neg (by omega : ¬ (2 : Nat) = 1), if_pos rfl] at h
    rcases htp : take8 rest with _ | p
    · rw [htp] at h; simp at h
    · rw [htp] at h
      simp only [Option.some_bind] at h
      rcases hu : unesc p.2 with _ | q <;> rw [hu] at h <;> simp at h

theorem rangeTest_canonical (K : Bytes) (x y : Nat) (hx : x < 2 ^ 64) (hy : y < 2 ^ 64)
    (k : MvccKey) (hwf : keyWfB k = true) :
    (bytesLe (encodeMvccKey (.version K x)) (encodeMvccKey k) &&
     bytesLt (encodeMvccKey k) (encodeMvccKey (.version K y))) =
    isVerInRangeB K x y (encodeMvccKey k) := by
  cases k with
  | nextVersion =>
    have hle : bytesLe (encodeMvccKey (.version K x)) (encodeMvccKey .nextVersion) = false := by
      simp only [encodeMvccKey, bytesLe]
      rw [bytesCmp_cons_gt _ _ (by omega : (0 : Nat) < 3)]
      rfl
    rw [hle]
    simp only [Bool.false_and, isVerInRangeB, decodeMvccKey]
    rfl
  | txnActive v =>
    have hle : bytesLe (encodeMvccKey (.version K x)) (encodeMvccKey (.txnActive v)) = false := by
      simp only [encodeMvccKey, bytesLe]
      rw [bytesCmp_cons_gt _ _ (by omega : (1 : Nat) < 3)]
      rfl
    rw [hle]
    simp only [Bool.false_and, isVerInRangeB]
    rw [decode_encodeMvccKey (.txnActive v) (by simpa [keyWf, keyWfB] using hwf)]
    simp [isVerKeyOf]
  | txnWrite v kk =>
    have hle : bytesLe (encodeMvccKey (.version K x)) (encodeMvccKey (.txnWrite v kk)) = false := by
      simp only [encodeMvccKey, bytesLe]
      rw [bytesCmp_cons_gt _ _ (by omega : (2 : Nat) < 3)]
      rfl
    rw [hle]
    simp only [Bool.false_and, isVerInRangeB]
    rw [decode_encodeMvccKey (.txnWrite v kk) (by simpa [keyWf, keyWfB] using hwf)]
    simp [isVerKeyOf]
  | version k w =>
    have hw : w < 2 ^ 64 := by simpa [keyWfB] using hwf
    have hdec : decodeMvccKey (encodeMvccKey (.version k w)) = some (.version k w) :=
      decode_encodeMvccKey _ (by simpa [keyWf] using hw)
    have hr : isVerInRangeB K x y (encodeMvccKey (.version k w)) =
        (decide (k = K) && decide (x ≤ w) && decide (w < y)) := by
      unfold isVerInRangeB
      rw [hdec]
      simp [isVerKeyOf]
    rw [hr]
    by_cases hkK : k = K
    · subst hkK
      have h1 : bytesCmp (encodeMvccKey (.version k x)) (encodeMvccKey (.version k w)) =
          bytesCmp (be64 x) (be64 w) := cmp_encVersion_same k x w
      have h2 : bytesCmp (encodeMvccKey (.version k w)) (encodeMvccKey (.version k y)) =
          bytesCmp (be64 w) (be64 y) := cmp_encVersion_same k w y
      have hle : bytesLe (encodeMvccKey (.version k x)) (encodeMvccKey (.version k w)) =
          decide (x ≤ w) := by
        unfold bytesLe
        rw [h1]
        rcases Nat.lt_trichotomy x w with hc | hc | hc
        · rw [(be64_cmp_lt_iff hx hw).mpr hc]
          have hd : decide (x ≤ w) = true := by
            simp
            omega
          rw [hd]
          rfl
        · subst hc
          rw [show bytesCmp (be64 x) (be64 x) = .eq from bytesCmp_self _]
          have hd : decide (x ≤ x) = true := by simp
          rw [hd]
          rfl
        · have hwx : bytesCmp (be64 w) (be64 x) = .lt := (be64_cmp_lt_iff hw hx).mpr hc
          have hs := bytesCmp_swap (be64 x) (be64 w)
          rw [hwx] at hs
          rw [show bytesCmp (be64 x) (be64 w) = .gt from by
            rcases hcc : bytesCmp (be64 x) (be64 w) with _ | _ | _
            · rw [hcc] at hs; cases hs
            · rw [hcc] at hs; cases hs
            · rfl]
          have hd : decide (x ≤ w) = false := by
            simp
            omega
          rw [hd]
          rfl
      have hlt : bytesLt (encodeMvccKey (.version k w)) (encodeMvccKey (.version k y)) =
          decide (w < y) := by
        unfold bytesLt
        rw [h2]
        by_cases hc : w < y
        · rw [(be64_cmp_lt_iff hw hy).mpr hc]
          have hd : decide (w < y) = true := by simp [hc]
          rw [hd]
          rfl
        · have hd : decide (w < y) = false := by simp [hc]
          rw [hd]
          rcases hcc : bytesCmp (be64 w) (be64 y) with _ | _ | _
          · exact absurd ((be64_cmp_lt_iff hw hy).mp hcc) hc
          · rfl
          · rfl
      rw [hle, hlt]
      simp
    · have hc1 : bytesCmp (encodeMvccKey (.version K x)) (encodeMvccKey (.version k w)) =
          bytesCmp (encBytes K) (encBytes k) :=
        cmp_encVersion_ne K k x w (fun h => hkK h.symm)
      have hc2 : bytesCmp (encodeMvccKey (.version k w)) (encodeMvccKey (.version K y)) =
          bytesCmp (encBytes k) (encBytes K) := cmp_encVersion_ne k K w y hkK
      have hrhs : (decide (k = K) && decide (x ≤ w) && decide (w < y)) = false := by
        simp [hkK]
      rw [hrhs]
      rcases hcc : bytesCmp (encBytes K) (encBytes k) with _ | _ | _
      · have : bytesCmp (encBytes k) (encBytes K) = .gt := by
          have hs := bytesCmp_swap (encBytes K) (encBytes k)
          rw [hcc] at hs
          exact hs
        have hlt : bytesLt (encodeMvccKey (.version k w)) (encodeMvccKey (.version K y)) =
            false := by
          unfold bytesLt
          rw [hc2, this]
          rfl
        rw [hlt]
        simp
      · exact absurd (encBytes_inj (bytesCmp_eq_iff.mp hcc)).symm hkK
      · have hle : bytesLe (encodeMvccKey (.version K x)) (encodeMvccKey (.version k w)) =
            false := by
          unfold bytesLe
          rw [hc1, hcc]
          rfl
        rw [hle]
        simp

theorem engScan_window (K : Bytes) (x y : Nat) (hx : x < 2 ^ 64) (hy : y < 2 ^ 64)
    (E : Engine) (hcanon : ∀ e ∈ E, canonicalEntry e = true) :
    engScan (encodeMvccKey (.version K x)) (encodeMvccKey (.version K y)) E =
      E.filter (fun e => isVerInRangeB K x y e.1) := by
  unfold engScan
  refine List.filter_congr ?_
  intro e he
  obtain ⟨k, _, henc, hwf, _⟩ := canonicalEntry_spec (hcanon e he)
  rw [henc]
  exact rangeTest_canonical K x y hx hy k hwf

theorem isVisible_false_iff (ts : TxnState) (w : Nat) :
    isVisible ts w = false ↔ (w ∈ ts.active ∨ ts.version ≤ w) := by
  unfold isVisible
  by_cases hm : w ∈ ts.active
  · simp [hm]
  · simp [hm]

theorem minActive_lt (ts : TxnState) (hv : ts.version < u64MAX)
    (hact : ∀ a ∈ ts.active, a < 2 ^ 64) : minActive ts < 2 ^ 64 := by
  unfold minActive
  rcases h : ts.active.min? with _ | m
  · simp only [Option.getD_none]
    unfold u64MAX at hv
    omega
  · simp only [Option.getD_some]
    exact hact m (List.min?_mem (fun a b => min_choice a b) h)

theorem windowEntry_spec (ts : TxnState) (E : Engine) (K : Bytes)
    (hcanon : ∀ e ∈ E, canonicalEntry e = true) :
    ∀ e ∈ E.filter (fun e => isVerInRangeB K (minActive ts) u64MAX e.1),
      decodeMvccKey e.1 = some (.version K (entryVersion e)) ∧
      minActive ts ≤ entryVersion e ∧ entryVersion e < u64MAX ∧
      entryVersion e < 2 ^ 64 ∧
      e.1 = encodeMvccKey (.version K (entryVersion e)) := by
  intro e he
  have heE : e ∈ E := List.mem_of_mem_filter he
  have hpred : isVerInRangeB K (minActive ts) u64MAX e.1 = true :=
    (List.mem_filter.mp he).2
  obtain ⟨k₀, hdec, henc, hwf, _⟩ := canonicalEntry_spec (hcanon e heE)
  unfold isVerInRangeB at hpred
  rw [hdec] at hpred
  rcases k₀ with _ | v | ⟨v, kk⟩ | ⟨kk, w⟩
  · simp [isVerKeyOf] at hpred
  · simp [isVerKeyOf] at hpred
  · simp [isVerKeyOf] at hpred
  · simp only [isVerKeyOf, Bool.and_eq_true, decide_eq_true_eq] at hpred
    obtain ⟨⟨hkK, hlo⟩, hhi⟩ := hpred
    subst hkK
    have hev : entryVersion e = w := by
      unfold entryVersion
      rw [hdec]
      simp [keyVersionOf]
    rw [hev]
    have hw64 : w < 2 ^ 64 := by
      unfold u64MAX at hhi
      omega
    exact ⟨hdec, hlo, hhi, hw64, henc⟩

theorem mvccConflictCheck_cases (ts : TxnState) (E : Engine) (K : Bytes)
    (hcanon : ∀ e ∈ E, canonicalEntry e = true)
    (hsort : engSorted E = true)
    (hv : ts.version < u64MAX)
    (hact : ∀ a ∈ ts.active, a < 2 ^ 64) :
    (mvccConflictCheck ts E K = .ok () ∨
      mvccConflictCheck ts E K = .error .writeConflict) ∧
    (mvccConflictCheck ts E K = .error .writeConflict ↔
      ∃ w, (verWindow ts E K).max? = some w ∧ (w ∈ ts.active ∨ ts.version ≤ w)) := by
  have hx : minActive ts < 2 ^ 64 := minActive_lt ts hv hact
  have hy : u64MAX < 2 ^ 64 := by unfold u64MAX; omega
  have hscan : engScan (encodeMvccKey (.version K (minActive ts)))
      (encodeMvccKey (.version K u64MAX)) E =
      E.filter (fun e => isVerInRangeB K (minActive ts) u64MAX e.1) :=
    engScan_window K _ _ hx hy E hcanon
  have hSmem := windowEntry_spec ts E K hcanon
  unfold mvccConflictCheck verWindow
  rw [hscan]
  rcases hS : (E.filter (fun e => isVerInRangeB K (minActive ts) u64MAX e.1)).getLast?
    with _ | e
  · have hSnil : E.filter (fun e => isVerInRangeB K (minActive ts) u64MAX e.1) = [] :=
      List.getLast?_eq_none_iff.mp hS
    rw [hS]
    constructor
    · left; rfl
    · constructor
      · intro h
        simp [checkLastEntry] at h
      · rintro ⟨w, hw, _⟩
        rw [hSnil] at hw
        simp at hw
  · obtain ⟨b, val⟩ := e
    have heS : (b, val) ∈ E.filter (fun e => isVerInRangeB K (minActive ts) u64MAX e.1) :=
      List.mem_of_getLast?_eq_some hS
    obtain ⟨hdec, hlo, hhi, hw64, henc⟩ := hSmem (b, val) heS
    have hpairS : (E.filter (fun e => isVerInRangeB K (minActive ts) u64MAX e.1)).Pairwise
        (fun a b => bytesLt a.1 b.1 = true) :=
      List.Pairwise.sublist (List.filter_sublist E) (engSorted_pairwise E hsort)
    have hpairW : ((E.filter (fun e => isVerInRangeB K (minActive ts) u64MAX e.1)).map
        entryVersion).Pairwise (· < ·) := by
      rw [List.pairwise_map]
      refine List.Pairwise.imp_of_mem ?_ hpairS
      intro a c ha hc hac
      obtain ⟨_, _, _, hwa, henca⟩ := hSmem a ha
      obtain ⟨_, _, _, hwc, hencc⟩ := hSmem c hc
      rw [bytesLt_iff] at hac
      rw [henca, hencc, cmp_encVersion_same] at hac
      exact (be64_cmp_lt_iff hwa hwc).mp hac
    have hlastw : ((E.filter (fun e => isVerInRangeB K (minActive ts) u64MAX e.1)).map
        entryVersion).getLast? = some (entryVersion (b, val)) := by
      rw [List.getLast?_map, hS]
      rfl
    obtain ⟨hmem, hmaxall⟩ := getLast_max_of_sorted _ hpairW _ hlastw
    have hmax : ((E.filter (fun e => isVerInRangeB K (minActive ts) u64MAX e.1)).map
        entryVersion).max? = some (entryVersion (b, val)) := by
      rw [List.max?_eq_some_iff (fun a => le_refl a) (fun a b => max_choice a b)
        (fun a b c => max_le_iff)]
      exact ⟨hmem, hmaxall⟩
    have hdec2 : decodeMvccKey b = some (.version K (entryVersion (b, val))) := hdec
    rw [hS]
    simp only [checkLastEntry]
    rw [hdec2]
    simp only [checkDecoded]
    rcases hvis : isVisible ts (entryVersion (b, val)) with _ | _
    · constructor
      · right
        simp [hvis]
      · constructor
        · intro _
          refine ⟨entryVersion (b, val), hmax, ?_⟩
          exact (isVisible_false_iff ts _).mp hvis
        · intro _
          simp [hvis]
    · constructor
      · left
        simp [hvis]
      · constructor
        · intro h
          simp at h
        · rintro ⟨w, hw, hcond⟩
          rw [hmax] at hw
          injection hw with hw
          subst hw
          have := (isVisible_false_iff ts _).mpr hcond
          rw [hvis] at this
          cases this

theorem writeInner_conflict_iff (ts : TxnState) (E : Engine) (K : Bytes)
    (val : Option Bytes) :
    mvccWriteInner ts E K val = .error .writeConflict ↔
      mvccConflictCheck ts E K = .error .writeConflict := by
  unfold mvccWriteInner
  rcases hc : mvccConflictCheck ts E K with err | u
  · constructor
    · intro h
      injection h with h
      rw [h]
    · intro h
      injection h with h
      rw [h]
  · constructor
    · intro h
      cases h
    · intro h
      cases h

theorem writeInner_error_class (ts : TxnState) (E : Engine) (K : Bytes)
    (val : Option Bytes)
    (hdisj : mvccConflictCheck ts E K = .ok () ∨
      mvccConflictCheck ts E K = .error .writeConflict) :
    ∀ err, mvccWriteInner ts E K val = .error err → err = .writeConflict := by
  intro err h
  unfold mvccWriteInner at h
  rcases hc : mvccConflictCheck ts E K with err' | u
  · rw [hc] at h
    injection h with h
    rcases hdisj with hok | hwc
    · rw [hc] at hok; cases hok
    · rw [hc] at hwc
      injection hwc with hwc
      rw [← h, hwc]
  · rw [hc] at h
    cases h

/-- Claim C2 counterexample scenario: with another transaction active
(version 0 in the active set), a transaction at version 1 writes key
`[107]` and then writes it again; the second write hits its own earlier
version and fails with `WriteConflict`. -/
theorem c2_counterexample :
    mvccSet ⟨1, [0]⟩ [] [107] [97] = .ok
      [([2, 0, 0, 0, 0, 0, 0, 0, 1, 107, 0, 0], VStore.unit),
       ([3, 107, 0, 0, 0, 0, 0, 0, 0, 0, 0, 1], VStore.opt (some [97]))] ∧
    mvccSet ⟨1, [0]⟩
      [([2, 0, 0, 0, 0, 0, 0, 0, 1, 107, 0, 0], VStore.unit),
       ([3, 107, 0, 0, 0, 0, 0, 0, 0, 0, 0, 1], VStore.opt (some [97]))] [107] [98] =
      .error .writeConflict := by
  constructor
  · rfl
  · rfl

/-- C2 (amended): `set`/`delete` on raw key `K` fails, and then always
with `WriteConflict`, if and only if the engine range
`Version(K, min(active ∪ {v+1})) .. Version(K, u64::MAX)` is non-empty
and its highest version `w` is not self-visible, i.e. `w ∈ active` or
`w ≥ T.version`.  In particular a transaction that rewrites a key it
already wrote conflicts with its own version whenever its active set is
non-empty (the scan window then starts at `min(active) ≤ T.version`),
while with an empty active set the window starts at `T.version + 1` and
its own version is skipped. -/
theorem c2_write_conflict_characterization
    (ts : TxnState) (E : Engine) (K value : Bytes)
    (hcanon : ∀ e ∈ E, canonicalEntry e = true)
    (hsort : engSorted E = true)
    (hv : ts.version < u64MAX)
    (hact : ∀ a ∈ ts.active, a < 2 ^ 64) :
    (mvccSet ts E K value = .error .writeConflict ↔
      ∃ w, (verWindow ts E K).max? = some w ∧ (w ∈ ts.active ∨ ts.version ≤ w)) ∧
    (mvccDel ts E K = .error .writeConflict ↔
      ∃ w, (verWindow ts E K).max? = some w ∧ (w ∈ ts.active ∨ ts.version ≤ w)) ∧
    (∀ err, mvccSet ts E K value = .error err → err = .writeConflict) ∧
    (∀ err, mvccDel ts E K = .error err → err = .writeConflict) := by
  obtain ⟨hdisj, hiff⟩ := mvccConflictCheck_cases ts E K hcanon hsort hv hact
  refine ⟨?_, ?_, ?_, ?_⟩
  · rw [← hiff]
    exact writeInner_conflict_iff ts E K (some value)
  · rw [← hiff]
    exact writeInner_conflict_iff ts E K none
  · exact writeInner_error_class ts E K (some value) hdisj
  · exact writeInner_error_class ts E K none hdisj

/-- Witness for `c2_write_conflict_characterization` on the concrete
engine produced by the counterexample's first write. -/
theorem c2_write_conflict_characterization_witness :
    (mvccSet ⟨1, [0]⟩
        [([2, 0, 0, 0, 0, 0, 0, 0, 1, 107, 0, 0], VStore.unit),
         ([3, 107, 0, 0, 0, 0, 0, 0, 0, 0, 0, 1], VStore.opt (some [97]))] [107] [98] =
        .error .writeConflict ↔
      ∃ w, (verWindow ⟨1, [0]⟩
        [([2, 0, 0, 0, 0, 0, 0, 0, 1, 107, 0, 0], VStore.unit),
         ([3, 107, 0, 0, 0, 0, 0, 0, 0, 0, 0, 1], VStore.opt (some [97]))] [107]).max? =
          some w ∧ (w ∈ [0] ∨ 1 ≤ w)) ∧
    (mvccDel ⟨1, [0]⟩
        [([2, 0, 0, 0, 0, 0, 0, 0, 1, 107, 0, 0], VStore.unit),
         ([3, 107, 0, 0, 0, 0, 0, 0, 0, 0, 0, 1], VStore.opt (some [97]))] [107] =
        .error .writeConflict ↔
      ∃ w, (verWindow ⟨1, [0]⟩
        [([2, 0, 0, 0, 0, 0, 0, 0, 1, 107, 0, 0], VStore.unit),
         ([3, 107, 0, 0, 0, 0, 0, 0, 0, 0, 0, 1], VStore.opt (some [97]))] [107]).max? =
          some w ∧ (w ∈ [0] ∨ 1 ≤ w)) ∧
    (∀ err, mvccSet ⟨1, [0]⟩
        [([2, 0, 0, 0, 0, 0, 0, 0, 1, 107, 0, 0], VStore.unit),
         ([3, 107, 0, 0, 0, 0, 0, 0, 0, 0, 0, 1], VStore.opt (some [97]))] [107] [98] =
        .error err → err = .writeConflict) ∧
    (∀ err, mvccDel ⟨1, [0]⟩
        [([2, 0, 0, 0, 0, 0, 0, 0, 1, 107, 0, 0], VStore.unit),
         ([3, 107, 0, 0, 0, 0, 0, 0, 0, 0, 0, 1], VStore.opt (some [97]))] [107] =
        .error err → err = .writeConflict) :=
  c2_write_conflict_characterization ⟨1, [0]⟩
    [([2, 0, 0, 0, 0, 0, 0, 0, 1, 107, 0, 0], VStore.unit),
     ([3, 107, 0, 0, 0, 0, 0, 0, 0, 0, 0, 1], VStore.opt (some [97]))] [107] [98]
    (by decide) (by decide) (by decide) (by decide)

theorem containsKey_iff (b : Bytes) (E : Engine) :
    containsKey b E = true ↔ ∃ e ∈ E, e.1 = b := by
  unfold containsKey
  rw [List.any_eq_true]
  constructor
  · rintro ⟨e, he, hb⟩
    exact ⟨e, he, by simpa using hb⟩
  · rintro ⟨e, he, hb⟩
    exact ⟨e, he, by simpa using hb⟩

theorem keyInList_iff (b : Bytes) (L : List Bytes) :
    keyInList b L = true ↔ b ∈ L := by
  unfold keyInList
  rw [List.any_eq_true]
  constructor
  · rintro ⟨k, hk, hb⟩
    simp at hb
    rwa [hb] at hk
  · intro hb
    exact ⟨b, hb, by simp⟩

theorem mem_engSet (k : Bytes) (v : VStore) :
    ∀ (E : Engine) (e : Bytes × VStore), e ∈ engSet k v E → e = (k, v) ∨ e ∈ E := by
  intro E
  induction E with
  | nil =>
    intro e he
    simp [engSet] at he
    left
    exact he
  | cons hd t ih =>
    intro e he
    obtain ⟨k', v'⟩ := hd
    unfold engSet at he
    rcases hcmp : bytesCmp k k' with _ | _ | _ <;> rw [hcmp] at he
    · rcases List.mem_cons.mp he with h | h
      · left; exact h
      · right; exact h
    · rcases List.mem_cons.mp he with h | h
      · left; exact h
      · right; exact List.mem_cons_of_mem _ h
    · rcases List.mem_cons.mp he with h | h
      · right; exact List.mem_cons.mpr (Or.inl h)
      · rcases ih e h with h' | h'
        · left; exact h'
        · right; exact List.mem_cons_of_mem _ h'

theorem self_mem_engSet (k : Bytes) (v : VStore) :
    ∀ (E : Engine), (k, v) ∈ engSet k v E := by
  intro E
  induction E with
  | nil => simp [engSet]
  | cons hd t ih =>
    obtain ⟨k', v'⟩ := hd
    unfold engSet
    rcases hcmp : bytesCmp k k' with _ | _ | _
    · exact List.mem_cons_self _ _
    · exact List.mem_cons_self _ _
    · exact List.mem_cons_of_mem _ ih

theorem containsKey_engSet (b k : Bytes) (v : VStore) :
    ∀ (E : Engine), containsKey b (engSet k v E) = ((k == b) || containsKey b E) := by
  intro E
  induction E with
  | nil => simp [engSet, containsKey]
  | cons hd t ih =>
    obtain ⟨k', v'⟩ := hd
    unfold engSet
    rcases hcmp : bytesCmp k k' with _ | _ | _
    · simp [containsKey]
    · have hk : k = k' := bytesCmp_eq_iff.mp hcmp
      subst hk
      simp [containsKey]
    · unfold containsKey at ih ⊢
      simp only [List.any_cons, ih]
      rcases hb : (k' == b) with _ | _ <;> rcases hb2 : (k == b) with _ | _ <;> simp

theorem foldl_engDelete (L : List Bytes) :
    ∀ (E : Engine),
    L.foldl (fun acc k => engDelete k acc) E = E.filter (fun e => !(keyInList e.1 L)) := by
  induction L with
  | nil =>
    intro E
    simp [keyInList]
  | cons k L' ih =>
    intro E
    rw [List.foldl_cons, ih (engDelete k E)]
    unfold engDelete
    rw [List.filter_filter]
    refine List.filter_congr ?_
    intro e _
    unfold keyInList
    simp only [List.any_cons]
    rcases h1 : (e.1 == k) with _ | _ <;> rcases h2 : (k == e.1) with _ | _
    · simp
    · simp at h1 h2
      exact absurd h2.symm h1
    · simp at h1 h2
      exact absurd h1.symm h2
    · simp

theorem keyInList_cons (b k : Bytes) (L : List Bytes) :
    keyInList b (k :: L) = ((k == b) || keyInList b L) := by
  simp [keyInList]

theorem keyInList_append (b : Bytes) (L1 L2 : List Bytes) :
    keyInList b (L1 ++ L2) = (keyInList b L1 || keyInList b L2) := by
  simp [keyInList]

theorem keyInList_single (b k : Bytes) : keyInList b [k] = (k == b) := by
  simp [keyInList]

theorem bytesLe_cons_gt {a b : Nat} (as bs : Bytes) (h : b < a) :
    bytesLe (a :: as) (b :: bs) = false := by
  simp only [bytesLe, bytesCmp_cons_gt as bs h]
  rfl

theorem bytesHasPfx_cons_ne {a b : Nat} (as bs : Bytes) (h : ¬ a = b) :
    bytesHasPfx (a :: as) (b :: bs) = false := by
  simp [bytesHasPfx, List.cons_prefix_cons, h]

theorem twPfx_version (v : Nat) (k : Bytes) (w : Nat) :
    bytesHasPfx (encodeMvccKeyPfx (.txnWrite v)) (encodeMvccKey (.version k w)) = false := by
  simp [bytesHasPfx, encodeMvccKeyPfx, encodeMvccKey, List.cons_prefix_cons]

theorem twPfx_self (v : Nat) (k : Bytes) :
    bytesHasPfx (encodeMvccKeyPfx (.txnWrite v)) (encodeMvccKey (.txnWrite v k)) = true := by
  simp [bytesHasPfx, encodeMvccKeyPfx, encodeMvccKey, List.cons_prefix_cons]

theorem freshVer_encVersion (v : Nat) (k : Bytes) (hv : v < 2 ^ 64) :
    freshVer v (encodeMvccKey (.version k v)) = false := by
  simp [freshVer, decode_encodeMvccKey (.version k v) hv]

theorem freshVer_encTxnWrite (v : Nat) (k : Bytes) (hv : v < 2 ^ 64) :
    freshVer v (encodeMvccKey (.txnWrite v k)) = true := by
  simp [freshVer, decode_encodeMvccKey (.txnWrite v k) hv]

theorem freshVer_ne_encVersion {v : Nat} {b : Bytes} (hf : freshVer v b = true)
    (hv : v < 2 ^ 64) : ∀ k, b ≠ encodeMvccKey (.version k v) := by
  intro k hb
  rw [hb, freshVer_encVersion v k hv] at hf
  cases hf

theorem encVersion_inj {a b : Bytes} {v : Nat}
    (h : encodeMvccKey (.version a v) = encodeMvccKey (.version b v)) : a = b := by
  simp only [encodeMvccKey, List.cons.injEq, true_and] at h
  exact encBytes_inj (List.append_inj' h rfl).1

theorem encTxnWrite_inj {a b : Bytes} {v : Nat}
    (h : encodeMvccKey (.txnWrite v a) = encodeMvccKey (.txnWrite v b)) : a = b := by
  simp only [encodeMvccKey, List.cons.injEq, true_and] at h
  exact encBytes_inj (List.append_inj h rfl).2

theorem encTxnWrite_ne_encVersion (v : Nat) (a b : Bytes) (w : Nat) :
    encodeMvccKey (.txnWrite v a) ≠ encodeMvccKey (.version b w) := by
  simp [encodeMvccKey]

theorem engScanPfx_nil_iff (p : Bytes) (E : Engine) :
    engScanPfx p E = [] ↔ ∀ e ∈ E, bytesHasPfx p e.1 = false := by
  unfold engScanPfx
  rw [List.filter_eq_nil_iff]
  constructor
  · intro h e he
    have := h e he
    simpa using this
  · intro h e he
    simp [h e he]

/-- Writes through `write_inner` only insert `TxnWrite(v, ·)` and
`Version(·, v)` entries, so any key-based filter that ignores both is
untouched by a write sequence. -/
theorem applyWrites_filter (ts : TxnState) (p : Bytes → Bool)
    (hp1 : ∀ kk, p (encodeMvccKey (.txnWrite ts.version kk)) = false)
    (hp2 : ∀ kk, p (encodeMvccKey (.version kk ts.version)) = false) :
    ∀ (ws : List (Bytes × Option Bytes)) (E : Engine),
    (applyWrites ts E ws).filter (fun e => p e.1) = E.filter (fun e => p e.1) := by
  intro ws
  induction ws with
  | nil => intro E; rfl
  | cons w rest ih =>
    intro E
    obtain ⟨k, val⟩ := w
    unfold applyWrites
    rcases hw : mvccWriteInner ts E k val with err | E'
    · exact ih E
    · show (applyWrites ts E' rest).filter (fun e => p e.1) = E.filter (fun e => p e.1)
      rw [ih E', mvccWriteInner_ok_eq hw,
        filter_engSet_false _ _ _ _ (hp2 k), filter_engSet_false _ _ _ _ (hp1 k)]

theorem applyWrites_mem (ts : TxnState) :
    ∀ (ws : List (Bytes × Option Bytes)) (E : Engine) (e : Bytes × VStore),
    e ∈ applyWrites ts E ws →
    e ∈ E ∨ (∃ kk, e.1 = encodeMvccKey (.txnWrite ts.version kk)) ∨
      (∃ kk, e.1 = encodeMvccKey (.version kk ts.version)) := by
  intro ws
  induction ws with
  | nil => intro E e he; exact Or.inl he
  | cons w rest ih =>
    intro E e he
    obtain ⟨k, val⟩ := w
    unfold applyWrites at he
    rcases hw : mvccWriteInner ts E k val with err | E' <;> rw [hw] at he
    · exact ih E e he
    · rcases ih E' e he with h | h | h
      · rw [mvccWriteInner_ok_eq hw] at h
        rcases mem_engSet _ _ _ _ h with h1 | h1
        · right; right; exact ⟨k, by rw [h1]⟩
        · rcases mem_engSet _ _ _ _ h1 with h2 | h2
          · right; left; exact ⟨k, by rw [h2]⟩
          · left; exact h2
      · right; left; exact h
      · right; right; exact h

theorem baseInvA (v : Nat) (E0 : Engine)
    (H1 : engScanPfx (encodeMvccKeyPfx (.txnWrite v)) E0 = []) : twInvA v E0 := by
  intro e he hpfx
  rw [(engScanPfx_nil_iff _ _).mp H1 e he] at hpfx
  cases hpfx

theorem baseInvB (v : Nat) (E0 : Engine) (hv : v < 2 ^ 64)
    (H2 : E0.all (fun e => freshVer v e.1) = true) : twInvB v E0 := by
  intro kk hck
  exfalso
  rcases (containsKey_iff _ _).mp hck with ⟨e, he, hb⟩
  have hf : freshVer v e.1 = true := by
    rw [List.all_eq_true] at H2
    simpa using H2 e he
  exact freshVer_ne_encVersion hf hv kk hb

theorem applyWrites_inv (ts : TxnState) :
    ∀ (ws : List (Bytes × Option Bytes)) (E : Engine),
    twInvA ts.version E → twInvB ts.version E →
    twInvA ts.version (applyWrites ts E ws) ∧ twInvB ts.version (applyWrites ts E ws) := by
  intro ws
  induction ws with
  | nil => intro E hA hB; exact ⟨hA, hB⟩
  | cons w rest ih =>
    intro E hA hB
    obtain ⟨k, val⟩ := w
    unfold applyWrites
    rcases hw : mvccWriteInner ts E k val with err | E'
    · exact ih E hA hB
    · show twInvA ts.version (applyWrites ts E' rest) ∧
        twInvB ts.version (applyWrites ts E' rest)
      refine ih E' ?_ ?_
      · intro e he hpfx
        rw [mvccWriteInner_ok_eq hw] at he
        rcases mem_engSet _ _ _ _ he with h1 | h1
        · exfalso
          rw [h1] at hpfx
          rw [twPfx_version] at hpfx
          cases hpfx
        · rcases mem_engSet _ _ _ _ h1 with h2 | h2
          · exact ⟨k, by rw [h2]⟩
          · exact hA e h2 hpfx
      · intro kk hck
        rw [mvccWriteInner_ok_eq hw] at hck ⊢
        rw [containsKey_engSet, containsKey_engSet] at hck ⊢
        simp only [Bool.or_eq_true, beq_iff_eq] at hck ⊢
        rcases hck with h1 | h1 | h1
        · have hkk : k = kk := encVersion_inj h1
          subst hkk
          right; left; rfl
        · exact absurd h1 (encTxnWrite_ne_encVersion _ _ _ _)
        · right; right; exact hB kk h1

/-- `rollback`'s collection loop on a list of canonical `TxnWrite(v, ·)`
entries: it succeeds, gathers exactly the scanned keys, and records the
matching `Version(kk, v)` key for each. -/
theorem rollbackKeys_spec (v : Nat) (hv : v < 2 ^ 64) :
    ∀ (l : List (Bytes × VStore)),
    (∀ e ∈ l, ∃ kk, e.1 = encodeMvccKey (.txnWrite v kk)) →
    ∃ tws vers, rollbackKeys v l = .ok (tws, vers) ∧
      tws = l.map (fun e => e.1) ∧
      (∀ c, keyInList c vers = true ↔
        ∃ kk, c = encodeMvccKey (.version kk v) ∧
          keyInList (encodeMvccKey (.txnWrite v kk)) (l.map (fun e => e.1)) = true) := by
  intro l
  induction l with
  | nil =>
    intro _
    refine ⟨[], [], rfl, rfl, ?_⟩
    intro c
    constructor
    · intro h; simp [keyInList] at h
    · rintro ⟨kk, hc, hin⟩
      simp [keyInList] at hin
  | cons e rest ih =>
    intro hshape
    obtain ⟨kk0, hk0⟩ := hshape e (List.mem_cons_self e rest)
    obtain ⟨tws, vers, hrk, htws, hvers⟩ :=
      ih (fun x hx => hshape x (List.mem_cons_of_mem _ hx))
    obtain ⟨eb, ev⟩ := e
    have hk0' : eb = encodeMvccKey (.txnWrite v kk0) := hk0
    refine ⟨eb :: tws, encodeMvccKey (.version kk0 v) :: vers, ?_, ?_, ?_⟩
    · unfold rollbackKeys
      rw [hk0', decode_encodeMvccKey (.txnWrite v kk0) hv, hrk]
    · simp [htws]
    · intro c
      rw [keyInList_cons]
      constructor
      · intro h
        simp only [Bool.or_eq_true] at h
        rcases h with h1 | h1
        · have hc : encodeMvccKey (.version kk0 v) = c := by simpa using h1
          refine ⟨kk0, hc.symm, ?_⟩
          rw [List.map_cons, keyInList_cons]
          simp [hk0']
        · rcases (hvers c).mp h1 with ⟨kk, hc, hin⟩
          refine ⟨kk, hc, ?_⟩
          rw [List.map_cons, keyInList_cons]
          simp [hin]
      · rintro ⟨kk, hc, hin⟩
        rw [List.map_cons, keyInList_cons] at hin
        simp only [Bool.or_eq_true] at hin
        rcases hin with h1 | h1
        · have heb : eb = encodeMvccKey (.txnWrite v kk) := by
            have := h1
            simp at this
            exact this
          have hkk : kk = kk0 := encTxnWrite_inj (by rw [← heb, hk0'])
          subst hkk
          rw [hc]
          simp
        · have := (hvers c).mpr ⟨kk, hc, h1⟩
          rw [this]
          simp

theorem mvccRollback_ok_eq {ts : TxnState} {e : Engine} {tws vers : List Bytes}
    (h : rollbackKeys ts.version
        (engScanPfx (encodeMvccKeyPfx (.txnWrite ts.version)) e) = .ok (tws, vers)) :
    mvccRollback ts e = .ok (engDelete (encodeMvccKey (.txnActive ts.version))
      (vers.foldl (fun acc k => engDelete k acc)
        (tws.foldl (fun acc k => engDelete k acc) e))) := by
  unfold mvccRollback
  rw [h]

theorem rollback_shape (twA : Bytes) (tws vers : List Bytes) (E : Engine) :
    engDelete twA (vers.foldl (fun acc k => engDelete k acc)
        (tws.foldl (fun acc k => engDelete k acc) E))
      = E.filter (fun e =>
          !(keyInList e.1 tws || (keyInList e.1 vers || keyInList e.1 [twA]))) := by
  have h1 : engDelete twA (vers.foldl (fun acc k => engDelete k acc)
        (tws.foldl (fun acc k => engDelete k acc) E))
      = ((tws ++ (vers ++ [twA])).foldl (fun acc k => engDelete k acc) E) := by
    rw [List.foldl_append, List.foldl_append]
    rfl
  rw [h1, foldl_engDelete]
  exact List.filter_congr (fun e _ => by rw [keyInList_append, keyInList_append])

theorem filter_engDelete_false (p : Bytes → Bool) (b : Bytes) (E : Engine)
    (hpb : p b = false) :
    (engDelete b E).filter (fun kv => p kv.1) = E.filter (fun kv => p kv.1) := by
  unfold engDelete
  rw [List.filter_filter]
  refine List.filter_congr ?_
  intro e _
  rcases heb : (e.1 == b) with _ | _
  · simp
  · have he : e.1 = b := by simpa using heb
    rw [he, hpb]
    rfl

theorem versionPfxTrunc_eq (p : Bytes) : versionPfxTrunc p = 3 :: escChunks p := by
  unfold versionPfxTrunc
  have h1 : encodeMvccKeyPfx (.version p) = 3 :: (escChunks p ++ [0, 0]) := rfl
  rw [h1]
  have h2 : (3 :: (escChunks p ++ [0, 0])).length - 2 = (escChunks p).length + 1 := by
    simp
  rw [h2, List.take_succ_cons, List.take_left]

/-- Rolling back any sequence of writes on a fresh engine restores the
engine with only the `TxnActive` marker removed. -/
theorem rollback_applyWrites (ts : TxnState) (E0 : Engine)
    (ws : List (Bytes × Option Bytes))
    (hv : ts.version < 2 ^ 64)
    (H1 : engScanPfx (encodeMvccKeyPfx (.txnWrite ts.version)) E0 = [])
    (H2 : E0.all (fun e => freshVer ts.version e.1) = true) :
    mvccRollback ts (applyWrites ts E0 ws)
      = .ok (engDelete (encodeMvccKey (.txnActive ts.version)) E0) := by
  obtain ⟨hA, hB⟩ := applyWrites_inv ts ws E0 (baseInvA _ _ H1) (baseInvB _ _ hv H2)
  have hH1pt := (engScanPfx_nil_iff _ _).mp H1
  have hH2pt : ∀ e ∈ E0, freshVer ts.version e.1 = true := by
    intro e he
    rw [List.all_eq_true] at H2
    simpa using H2 e he
  have hlmem : ∀ e ∈ engScanPfx (encodeMvccKeyPfx (.txnWrite ts.version))
      (applyWrites ts E0 ws),
      e ∈ applyWrites ts E0 ws ∧
        bytesHasPfx (encodeMvccKeyPfx (.txnWrite ts.version)) e.1 = true := by
    intro e he
    unfold engScanPfx at he
    exact ⟨List.mem_of_mem_filter he, by simpa using List.of_mem_filter he⟩
  have hmeml : ∀ e ∈ applyWrites ts E0 ws,
      bytesHasPfx (encodeMvccKeyPfx (.txnWrite ts.version)) e.1 = true →
      e ∈ engScanPfx (encodeMvccKeyPfx (.txnWrite ts.version)) (applyWrites ts E0 ws) := by
    intro e he hp
    unfold engScanPfx
    exact List.mem_filter.mpr ⟨he, by simpa using hp⟩
  obtain ⟨tws, vers, hrk, htws, hvers⟩ :=
    rollbackKeys_spec ts.version hv _
      (fun e he => hA e (hlmem e he).1 (hlmem e he).2)
  have hstep1 : ∀ e ∈ applyWrites ts E0 ws,
      keyInList e.1 tws = bytesHasPfx (encodeMvccKeyPfx (.txnWrite ts.version)) e.1 := by
    intro e he
    rcases hA' : bytesHasPfx (encodeMvccKeyPfx (.txnWrite ts.version)) e.1 with _ | _
    · rcases hk : keyInList e.1 tws with _ | _
      · rfl
      · exfalso
        rw [htws, keyInList_iff] at hk
        rcases List.mem_map.mp hk with ⟨x, hx, hxb⟩
        have hpx := (hlmem x hx).2
        rw [hxb, hA'] at hpx
        cases hpx
    · rw [htws, keyInList_iff]
      exact List.mem_map.mpr ⟨e, hmeml e he hA', rfl⟩
  have hstep2 : ∀ e ∈ applyWrites ts E0 ws,
      keyInList e.1 vers = !(freshVer ts.version e.1) := by
    intro e he
    rcases applyWrites_mem ts ws E0 e he with hmem | ⟨kk, hkk⟩ | ⟨kk, hkk⟩
    · have hf := hH2pt e hmem
      rw [hf]
      rcases hk : keyInList e.1 vers with _ | _
      · rfl
      · exfalso
        rcases (hvers e.1).mp hk with ⟨kk, hc, _⟩
        exact freshVer_ne_encVersion hf hv kk hc
    · rw [hkk, freshVer_encTxnWrite ts.version kk hv]
      rcases hk : keyInList (encodeMvccKey (.txnWrite ts.version kk)) vers with _ | _
      · rfl
      · exfalso
        rcases (hvers _).mp hk with ⟨kk', hc, _⟩
        exact encTxnWrite_ne_encVersion ts.version kk kk' ts.version hc
    · rw [hkk, freshVer_encVersion ts.version kk hv]
      have hmv : keyInList (encodeMvccKey (.version kk ts.version)) vers = true := by
        rw [hvers]
        refine ⟨kk, rfl, ?_⟩
        rw [keyInList_iff]
        have hce : containsKey (encodeMvccKey (.version kk ts.version))
            (applyWrites ts E0 ws) = true := by
          rw [containsKey_iff]
          exact ⟨e, he, hkk⟩
        rcases (containsKey_iff _ _).mp (hB kk hce) with ⟨e', he', he'b⟩
        have hp : bytesHasPfx (encodeMvccKeyPfx (.txnWrite ts.version)) e'.1 = true := by
          rw [he'b]
          exact twPfx_self ts.version kk
        exact List.mem_map.mpr ⟨e', hmeml e' he' hp, he'b⟩
      rw [hmv]
      rfl
  have hstep : ∀ e ∈ applyWrites ts E0 ws,
      (!(keyInList e.1 tws || (keyInList e.1 vers ||
          keyInList e.1 [encodeMvccKey (.txnActive ts.version)])))
        = ((!(bytesHasPfx (encodeMvccKeyPfx (.txnWrite ts.version)) e.1) &&
            freshVer ts.version e.1) &&
            !(e.1 == encodeMvccKey (.txnActive ts.version))) := by
    intro e he
    rw [hstep1 e he, hstep2 e he, keyInList_single]
    cases hA' : bytesHasPfx (encodeMvccKeyPfx (.txnWrite ts.version)) e.1 <;>
      cases hB' : freshVer ts.version e.1 <;>
      cases hC' : (encodeMvccKey (.txnActive ts.version) == e.1) <;>
      rcases hD' : (e.1 == encodeMvccKey (.txnActive ts.version)) with _ | _ <;>
      simp_all
  rw [mvccRollback_ok_eq hrk, rollback_shape]
  congr 1
  rw [List.filter_congr hstep,
    applyWrites_filter ts
      (fun b => (!(bytesHasPfx (encodeMvccKeyPfx (.txnWrite ts.version)) b) &&
          freshVer ts.version b) && !(b == encodeMvccKey (.txnActive ts.version)))
      (fun kk => by simp [twPfx_self])
      (fun kk => by simp [freshVer_encVersion _ kk hv]) ws E0]
  unfold engDelete
  exact List.filter_congr (fun e he => by rw [hH1pt e he, hH2pt e he]; rfl)

/-- **C6**: Rollback is atomic and complete: starting from an engine that
is fresh for transaction T's version (no pre-existing `TxnWrite(T.v, ·)`
entries and no `Version(·, T.v)` entries, as `begin` guarantees for a new
version), after any sequence of `set`/`delete` calls by T, `rollback`
succeeds and returns the original engine with only the `TxnActive(T.v)`
marker removed; hence no `Version(k, T.v)` entry remains for any raw key
k, and every `get` or `scan_prefix` by any transaction state returns
exactly what it returns on the pre-write engine. -/
theorem c6_rollback_atomic (ts : TxnState) (E0 : Engine)
    (ws : List (Bytes × Option Bytes))
    (hv : ts.version < 2 ^ 64)
    (H1 : engScanPfx (encodeMvccKeyPfx (.txnWrite ts.version)) E0 = [])
    (H2 : E0.all (fun e => freshVer ts.version e.1) = true) :
    mvccRollback ts (applyWrites ts E0 ws)
      = .ok (engDelete (encodeMvccKey (.txnActive ts.version)) E0) ∧
    (∀ k, containsKey (encodeMvccKey (.version k ts.version))
        (engDelete (encodeMvccKey (.txnActive ts.version)) E0) = false) ∧
    (∀ ts' key, mvccGet ts' (engDelete (encodeMvccKey (.txnActive ts.version)) E0) key
        = mvccGet ts' E0 key) ∧
    (∀ ts' p, mvccScanPfx ts' (engDelete (encodeMvccKey (.txnActive ts.version)) E0) p
        = mvccScanPfx ts' E0 p) := by
  have hH2pt : ∀ e ∈ E0, freshVer ts.version e.1 = true := by
    intro e he
    rw [List.all_eq_true] at H2
    simpa using H2 e he
  refine ⟨rollback_applyWrites ts E0 ws hv H1 H2, ?_, ?_, ?_⟩
  · intro k
    rcases hck : containsKey (encodeMvccKey (.version k ts.version))
        (engDelete (encodeMvccKey (.txnActive ts.version)) E0) with _ | _
    · rfl
    · exfalso
      rcases (containsKey_iff _ _).mp hck with ⟨e, he, hb⟩
      have he' : e ∈ E0.filter
          (fun kv => !(kv.1 == encodeMvccKey (.txnActive ts.version))) := he
      exact freshVer_ne_encVersion (hH2pt e (List.mem_of_mem_filter he')) hv k hb
  · intro ts' key
    unfold mvccGet
    have hscan : engScan (encodeMvccKey (.version key 0))
        (encodeMvccKey (.version key ts'.version))
        (engDelete (encodeMvccKey (.txnActive ts.version)) E0)
      = engScan (encodeMvccKey (.version key 0))
        (encodeMvccKey (.version key ts'.version)) E0 := by
      unfold engScan
      refine filter_engDelete_false
        (fun x => bytesLe (encodeMvccKey (.version key 0)) x &&
          bytesLt x (encodeMvccKey (.version key ts'.version))) _ _ ?_
      have h1 : bytesLe (3 :: (encBytes key ++ be64 0)) (1 :: be64 ts.version) = false :=
        bytesLe_cons_gt _ _ (by omega)
      simp [encodeMvccKey, h1]
    rw [hscan]
  · intro ts' pfx
    unfold mvccScanPfx
    have hscan : engScanPfx (versionPfxTrunc pfx)
        (engDelete (encodeMvccKey (.txnActive ts.version)) E0)
      = engScanPfx (versionPfxTrunc pfx) E0 := by
      unfold engScanPfx
      refine filter_engDelete_false (fun x => bytesHasPfx (versionPfxTrunc pfx) x) _ _ ?_
      have h1 : bytesHasPfx (3 :: escChunks pfx) (1 :: be64 ts.version) = false :=
        bytesHasPfx_cons_ne _ _ (by omega)
      simp [versionPfxTrunc_eq, encodeMvccKey, h1]
    rw [hscan]

/-- C6 witness: transaction at version 1 over the empty engine writes key
`[107]` and rolls back; the engine returns to the empty state minus the
(absent) `TxnActive` marker. -/
theorem c6_rollback_atomic_witness :
    mvccRollback ⟨1, []⟩ (applyWrites ⟨1, []⟩ [] [([107], some [97])])
      = .ok (engDelete (encodeMvccKey (.txnActive 1)) []) :=
  (c6_rollback_atomic ⟨1, []⟩ [] [([107], some [97])]
    (by decide) (by decide) (by decide)).1

/-! ## The codec as an order embedding (claim C5) -/

theorem keyWfB_keyWf {k : MvccKey} (h : keyWfB k = true) : keyWf k := by
  cases k with
  | nextVersion => trivial
  | txnActive v => simpa [keyWfB, keyWf] using h
  | txnWrite v k => simpa [keyWfB, keyWf] using h
  | version k v => simpa [keyWfB, keyWf] using h

theorem pfx_eq_of_length {a b z : Bytes} (hlen : a.length = b.length)
    (h : a <+: b ++ z) : a = b := by
  obtain ⟨t, ht⟩ := h
  have h1 : (a ++ t).take a.length = a := by
    rw [List.take_left]
  rw [ht, hlen, List.take_left] at h1
  exact h1.symm

theorem bytesCmp_append_eqlen {x y : Bytes} (u v : Bytes) (hlen : x.length = y.length)
    (hne : x ≠ y) : bytesCmp (x ++ u) (y ++ v) = bytesCmp x y :=
  bytesCmp_append_stable x y u v
    (fun z hz => hne (pfx_eq_of_length hlen hz))
    (fun z hz => hne (pfx_eq_of_length hlen.symm hz).symm)

theorem bytesCmp_cons_same (t : Nat) (x y : Bytes) :
    bytesCmp (t :: x) (t :: y) = bytesCmp x y := by
  simp [bytesCmp]

theorem be64_cmp {x w : Nat} (hx : x < 2 ^ 64) (hw : w < 2 ^ 64) :
    bytesCmp (be64 x) (be64 w) = compare x w := by
  rcases Nat.lt_trichotomy x w with h | h | h
  · rw [(be64_cmp_lt_iff hx hw).mpr h]
    exact (Nat.compare_eq_lt.mpr h).symm
  · subst h
    rw [bytesCmp_self]
    exact (Nat.compare_eq_eq.mpr rfl).symm
  · have h1 : bytesCmp (be64 w) (be64 x) = .lt := (be64_cmp_lt_iff hw hx).mpr h
    rw [bytesCmp_swap (be64 w) (be64 x), h1]
    exact (Nat.compare_eq_gt.mpr h).symm

/-- Escaping plus termination preserves the byte-lexicographic order of
raw byte strings exactly. -/
theorem encBytes_cmp : ∀ (k l : Bytes), bytesCmp (encBytes k) (encBytes l) = bytesCmp k l := by
  intro k
  induction k with
  | nil =>
    intro l
    cases l with
    | nil => rfl
    | cons b l' =>
      by_cases hb : b = 0
      · subst hb
        simp [encBytes, escChunks_nil, escChunks_cons_zero, bytesCmp]
      · have hb0 : 0 < b := Nat.pos_of_ne_zero hb
        simp [encBytes, escChunks_nil, escChunks_cons_pos b l' hb, bytesCmp, hb0]
  | cons a k' ih =>
    intro l
    cases l with
    | nil =>
      by_cases ha : a = 0
      · subst ha
        simp [encBytes, escChunks_nil, escChunks_cons_zero, bytesCmp]
      · have ha0 : 0 < a := Nat.pos_of_ne_zero ha
        simp [encBytes, escChunks_nil, escChunks_cons_pos a k' ha, bytesCmp, ha0]
    | cons b l' =>
      by_cases ha : a = 0 <;> by_cases hb : b = 0
      · subst ha; subst hb
        simp only [encBytes, escChunks_cons_zero, List.cons_append, bytesCmp_cons_same]
        exact ih l'
      · subst ha
        have hb0 : 0 < b := Nat.pos_of_ne_zero hb
        simp only [encBytes, escChunks_cons_zero, escChunks_cons_pos b l' hb,
          List.cons_append]
        simp [bytesCmp, hb0]
      · subst hb
        have ha0 : 0 < a := Nat.pos_of_ne_zero ha
        simp only [encBytes, escChunks_cons_pos a k' ha, escChunks_cons_zero,
          List.cons_append]
        simp [bytesCmp, ha0]
      · simp only [encBytes, escChunks_cons_pos a k' ha, escChunks_cons_pos b l' hb,
          List.cons_append]
        rcases Nat.lt_trichotomy a b with h | h | h
        · simp [bytesCmp, h]
        · subst h
          simp only [bytesCmp_cons_same]
          exact ih l'
        · have h2 : ¬ a < b := by omega
          simp [bytesCmp, h, h2]

theorem keyCmp_tw (v w : Nat) (k l : Bytes) :
    keyCmp (.txnWrite v k) (.txnWrite w l)
      = match compare v w with
        | .eq => bytesCmp k l
        | .lt => .lt
        | .gt => .gt := by
  rcases hc : compare v w with _ | _ | _ <;> simp [keyCmp, hc]

theorem keyCmp_ver (k l : Bytes) (v w : Nat) :
    keyCmp (.version k v) (.version l w)
      = match bytesCmp k l with
        | .eq => compare v w
        | .lt => .lt
        | .gt => .gt := by
  rcases hc : bytesCmp k l with _ | _ | _ <;> simp [keyCmp, hc]

/-- `serialize_key` is monotone: the encoding's byte-lexicographic order
agrees with the declared key order everywhere. -/
theorem encode_order_embed (a b : MvccKey) (ha : keyWfB a = true) (hb : keyWfB b = true) :
    bytesCmp (encodeMvccKey a) (encodeMvccKey b) = keyCmp a b := by
  cases a with
  | nextVersion =>
    cases b with
    | nextVersion => decide
    | txnActive w =>
      show bytesCmp (0 :: []) (1 :: be64 w) = .lt
      exact bytesCmp_cons_lt _ _ (by omega)
    | txnWrite w l =>
      show bytesCmp (0 :: []) (2 :: (be64 w ++ encBytes l)) = .lt
      exact bytesCmp_cons_lt _ _ (by omega)
    | version l w =>
      show bytesCmp (0 :: []) (3 :: (encBytes l ++ be64 w)) = .lt
      exact bytesCmp_cons_lt _ _ (by omega)
  | txnActive v =>
    cases b with
    | nextVersion =>
      show bytesCmp (1 :: be64 v) (0 :: []) = .gt
      exact bytesCmp_cons_gt _ _ (by omega)
    | txnActive w =>
      show bytesCmp (1 :: be64 v) (1 :: be64 w) = compare v w
      rw [bytesCmp_cons_same]
      exact be64_cmp (by simpa [keyWfB] using ha) (by simpa [keyWfB] using hb)
    | txnWrite w l =>
      show bytesCmp (1 :: be64 v) (2 :: (be64 w ++ encBytes l)) = .lt
      exact bytesCmp_cons_lt _ _ (by omega)
    | version l w =>
      show bytesCmp (1 :: be64 v) (3 :: (encBytes l ++ be64 w)) = .lt
      exact bytesCmp_cons_lt _ _ (by omega)
  | txnWrite v k =>
    cases b with
    | nextVersion =>
      show bytesCmp (2 :: (be64 v ++ encBytes k)) (0 :: []) = .gt
      exact bytesCmp_cons_gt _ _ (by omega)
    | txnActive w =>
      show bytesCmp (2 :: (be64 v ++ encBytes k)) (1 :: be64 w) = .gt
      exact bytesCmp_cons_gt _ _ (by omega)
    | txnWrite w l =>
      have hv : v < 2 ^ 64 := by simpa [keyWfB] using ha
      have hw : w < 2 ^ 64 := by simpa [keyWfB] using hb
      have hlen : (be64 v).length = (be64 w).length := by
        simp [be64, beDigits_length]
      show bytesCmp (2 :: (be64 v ++ encBytes k)) (2 :: (be64 w ++ encBytes l))
        = keyCmp (.txnWrite v k) (.txnWrite w l)
      rw [bytesCmp_cons_same, keyCmp_tw]
      rcases hc : compare v w with _ | _ | _
      · have hlt : v < w := Nat.compare_eq_lt.mp hc
        rw [bytesCmp_append_eqlen _ _ hlen
            (fun heq => by have := be64_inj hv hw heq; omega),
          be64_cmp hv hw, hc]
      · have hvw : v = w := Nat.compare_eq_eq.mp hc
        subst hvw
        rw [bytesCmp_append_left, encBytes_cmp]
      · have hgt : w < v := Nat.compare_eq_gt.mp hc
        rw [bytesCmp_append_eqlen _ _ hlen
            (fun heq => by have := be64_inj hv hw heq; omega),
          be64_cmp hv hw, hc]
    | version l w =>
      show bytesCmp (2 :: (be64 v ++ encBytes k)) (3 :: (encBytes l ++ be64 w)) = .lt
      exact bytesCmp_cons_lt _ _ (by omega)
  | version k v =>
    cases b with
    | nextVersion =>
      show bytesCmp (3 :: (encBytes k ++ be64 v)) (0 :: []) = .gt
      exact bytesCmp_cons_gt _ _ (by omega)
    | txnActive w =>
      show bytesCmp (3 :: (encBytes k ++ be64 v)) (1 :: be64 w) = .gt
      exact bytesCmp_cons_gt _ _ (by omega)
    | txnWrite w l =>
      show bytesCmp (3 :: (encBytes k ++ be64 v)) (2 :: (be64 w ++ encBytes l)) = .gt
      exact bytesCmp_cons_gt _ _ (by omega)
    | version l w =>
      have hv : v < 2 ^ 64 := by simpa [keyWfB] using ha
      have hw : w < 2 ^ 64 := by simpa [keyWfB] using hb
      rw [keyCmp_ver]
      rcases hc : bytesCmp k l with _ | _ | _
      · have hne : k ≠ l := fun h => by rw [h, bytesCmp_self] at hc; cases hc
        rw [cmp_encVersion_ne k l v w hne, encBytes_cmp, hc]
      · have hkl : k = l := bytesCmp_eq_iff.mp hc
        subst hkl
        rw [cmp_encVersion_same, be64_cmp hv hw]
      · have hne : k ≠ l := fun h => by rw [h, bytesCmp_self] at hc; cases hc
        rw [cmp_encVersion_ne k l v w hne, encBytes_cmp, hc]

/-- **C5**: the key codec is a lossless order-embedding: every
representable key (version numbers in `u64`) round-trips through
decode-after-encode; the declared key order (variant tag, then fields,
`u64`s numeric, byte strings lexicographic) maps to strict byte-lexicographic
order of the encodings; and the `0x00 -> 0x00 0xFF` escaping with the
`0x00 0x00` terminator makes encoded byte strings prefix-free. -/
theorem c5_codec_order_embedding :
    (∀ k : MvccKey, keyWfB k = true → decodeMvccKey (encodeMvccKey k) = some k) ∧
    (∀ a b : MvccKey, keyWfB a = true → keyWfB b = true → keyCmp a b = .lt →
      bytesLt (encodeMvccKey a) (encodeMvccKey b) = true) ∧
    (∀ p k : Bytes, encBytes p <+: encBytes k → p = k) := by
  refine ⟨?_, ?_, ?_⟩
  · intro k hk
    exact decode_encodeMvccKey k (keyWfB_keyWf hk)
  · intro a b ha hb hlt
    rw [bytesLt_iff, encode_order_embed a b ha hb]
    exact hlt
  · intro p k h
    exact encBytes_pfx_eq p k [] (by simpa using h)

/-- C5 witness: concrete round-trip, order, and prefix-freeness
instances. -/
theorem c5_codec_order_embedding_witness :
    decodeMvccKey (encodeMvccKey (.version [0, 107] 5)) = some (.version [0, 107] 5) ∧
    bytesLt (encodeMvccKey (.version [0] 3)) (encodeMvccKey (.version [0, 1] 0)) = true ∧
    ([0] : Bytes) = [0] :=
  ⟨c5_codec_order_embedding.1 (.version [0, 107] 5) (by decide),
   c5_codec_order_embedding.2.1 (.version [0] 3) (.version [0, 1] 0)
     (by decide) (by decide) (by decide),
   c5_codec_order_embedding.2.2 [0] [0] (by decide)⟩

/-! ## scan_prefix machinery (claim C4) -/

/-- The truncated `Version` prefix is a byte prefix of an encoded
`Version(k, w)` key exactly when the raw prefix is a prefix of the raw
key. -/
theorem versionPfx_iff (P k : Bytes) (w : Nat) :
    bytesHasPfx (versionPfxTrunc P) (encodeMvccKey (.version k w)) = true ↔ P <+: k := by
  rw [versionPfxTrunc_eq]
  simp only [bytesHasPfx, encodeMvccKey, decide_eq_true_eq, List.cons_prefix_cons, true_and]
  constructor
  · intro h
    apply escChunks_pfx P k (be64 w)
    have heq : encBytes k ++ be64 w = escChunks k ++ (0 :: 0 :: be64 w) := by
      simp [encBytes]
    rwa [heq] at h
  · rintro ⟨t, ht⟩
    subst ht
    rw [show encBytes (P ++ t) = escChunks (P ++ t) ++ [0, 0] from rfl, escChunks_append]
    exact ⟨escChunks t ++ [0, 0] ++ be64 w, by simp⟩

theorem mlook_mapIns (k k' rv : Bytes) :
    ∀ (m : List (Bytes × Bytes)),
    mlook k (mapIns k' rv m) = if k = k' then some rv else mlook k m := by
  intro m
  induction m with
  | nil => simp [mapIns, mlook]
  | cons hd t ih =>
    obtain ⟨k0, v0⟩ := hd
    unfold mapIns
    rcases hc : bytesCmp k' k0 with _ | _ | _
    · simp [mlook]
    · have hk : k' = k0 := bytesCmp_eq_iff.mp hc
      subst hk
      by_cases hk2 : k = k'
      · simp [mlook, hk2]
      · simp [mlook, hk2]
    · by_cases hkk : k = k0
      · subst hkk
        have hne : ¬ k = k' := by
          intro h
          subst h
          rw [bytesCmp_self] at hc
          cases hc
        simp [mlook, hne]
      · simp [mlook, hkk, ih]

theorem mlook_mapDel (k k' : Bytes) :
    ∀ (m : List (Bytes × Bytes)),
    mlook k (mapDel k' m) = if k = k' then none else mlook k m := by
  intro m
  induction m with
  | nil => simp [mapDel, mlook]
  | cons hd t ih =>
    obtain ⟨k0, v0⟩ := hd
    unfold mapDel at ih ⊢
    rw [List.filter_cons]
    by_cases hkk : k0 = k'
    · subst hkk
      rw [if_neg (by simp)]
      rw [ih]
      by_cases hk : k = k0
      · subst hk; simp
      · simp [mlook, hk]
    · rw [if_pos (by simpa using hkk)]
      by_cases hk : k = k0
      · subst hk
        simp [mlook, hkk, ih]
      · simp [mlook, hk, ih]

theorem mapIns_mem (k rv : Bytes) :
    ∀ (m : List (Bytes × Bytes)) (e : Bytes × Bytes),
    e ∈ mapIns k rv m → e = (k, rv) ∨ e ∈ m := by
  intro m
  induction m with
  | nil =>
    intro e he
    simp [mapIns] at he
    left
    exact he
  | cons hd t ih =>
    intro e he
    obtain ⟨k0, v0⟩ := hd
    unfold mapIns at he
    rcases hc : bytesCmp k k0 with _ | _ | _ <;> rw [hc] at he
    · rcases List.mem_cons.mp he with h | h
      · left; exact h
      · right; exact h
    · rcases List.mem_cons.mp he with h | h
      · left; exact h
      · right; exact List.mem_cons_of_mem _ h
    · rcases List.mem_cons.mp he with h | h
      · right; exact List.mem_cons.mpr (Or.inl h)
      · rcases ih e h with h' | h'
        · left; exact h'
        · right; exact List.mem_cons_of_mem _ h'

theorem mapIns_sorted (k rv : Bytes) :
    ∀ (m : List (Bytes × Bytes)), MapAsc m → MapAsc (mapIns k rv m) := by
  intro m
  induction m with
  | nil =>
    intro _
    simp [mapIns, MapAsc]
  | cons hd t ih =>
    intro hm
    obtain ⟨k0, v0⟩ := hd
    rw [MapAsc, List.pairwise_cons] at hm
    obtain ⟨hhd, ht⟩ := hm
    unfold mapIns
    rcases hc : bytesCmp k k0 with _ | _ | _
    · rw [MapAsc, List.pairwise_cons]
      refine ⟨?_, List.pairwise_cons.mpr ⟨hhd, ht⟩⟩
      intro e he
      rcases List.mem_cons.mp he with h | h
      · rw [h]
        rw [bytesLt_iff]
        exact hc
      · rw [bytesLt_iff]
        have h1 : bytesCmp k0 e.1 = .lt := (bytesLt_iff _ _).mp (hhd e h)
        exact bytesCmp_lt_trans hc h1
    · have hk : k = k0 := bytesCmp_eq_iff.mp hc
      subst hk
      rw [MapAsc, List.pairwise_cons]
      exact ⟨hhd, ht⟩
    · rw [MapAsc, List.pairwise_cons]
      refine ⟨?_, ih ht⟩
      intro e he
      rcases mapIns_mem k rv t e he with h | h
      · have hlt0 : bytesCmp k0 k = .lt := by
          have hs := bytesCmp_swap k k0
          rw [hc] at hs
          exact hs
        rw [h, bytesLt_iff]
        exact hlt0
      · exact hhd e h

theorem mapDel_sorted (k : Bytes) (m : List (Bytes × Bytes)) (hm : MapAsc m) :
    MapAsc (mapDel k m) :=
  List.Pairwise.sublist (List.filter_sublist m) hm

/-- In a strictly sorted map, lookup and membership agree. -/
theorem mlook_mem_iff (k v : Bytes) :
    ∀ (m : List (Bytes × Bytes)), MapAsc m → (mlook k m = some v ↔ (k, v) ∈ m) := by
  intro m
  induction m with
  | nil => intro _; simp [mlook]
  | cons hd t ih =>
    intro hm
    obtain ⟨k0, v0⟩ := hd
    rw [MapAsc, List.pairwise_cons] at hm
    obtain ⟨hhd, ht⟩ := hm
    by_cases hk : k = k0
    · subst hk
      constructor
      · intro h
        simp only [mlook, if_pos rfl] at h
        injection h with h
        rw [h]
        exact List.mem_cons_self _ _
      · intro h
        rcases List.mem_cons.mp h with h | h
        · have h2 : v = v0 := congrArg Prod.snd h
          simp [mlook, h2]
        · exfalso
          have hlt : bytesLt k k = true := hhd (k, v) h
          rw [bytesLt_self] at hlt
          cases hlt
    · simp only [mlook, if_neg hk, List.mem_cons]
      rw [ih ht]
      constructor
      · intro h; right; exact h
      · intro h
        rcases h with h | h
        · exact absurd (congrArg Prod.fst h) hk
        · exact h

theorem actOf_eq_wAct (ts : TxnState) (k : Bytes) (e : Bytes × VStore) :
    actOf ts k e = (wAct ts k e).map (fun p => p.2) := by
  unfold actOf wAct
  rcases hd : decodeMvccKey e.1 with _ | k0
  · rfl
  · cases k0 with
    | nextVersion => rfl
    | txnActive v => rfl
    | txnWrite v kk => rfl
    | version kk w =>
      show actVal ts k kk w e.2 = (wActVal ts k kk w e.2).map (fun p => p.2)
      cases e.2 with
      | num n => rfl
      | unit => rfl
      | opt o =>
        by_cases h : kk = k ∧ isVisible ts w = true
        · simp [actVal, wActVal, h]
        · simp [actVal, wActVal, h]

theorem filterMap_actOf (ts : TxnState) (k : Bytes) (E : Engine) :
    E.filterMap (fun e => actOf ts k e)
      = (E.filterMap (fun e => wAct ts k e)).map (fun p => p.2) := by
  rw [List.map_filterMap]
  simp only [actOf_eq_wAct]

theorem scanFold_cons_vis_ins (ts : TxnState) (b : Bytes) (rest : List (Bytes × VStore))
    (m : List (Bytes × Bytes)) (kk : Bytes) (w : Nat) (rv : Bytes)
    (hdec : decodeMvccKey b = some (.version kk w)) (hvis : isVisible ts w = true) :
    scanFold ts ((b, .opt (some rv)) :: rest) m = scanFold ts rest (mapIns kk rv m) := by
  conv_lhs => unfold scanFold
  rw [hdec]
  show (if isVisible ts w = true then scanFold ts rest (mapIns kk rv m)
    else scanFold ts rest m) = _
  rw [if_pos hvis]

theorem scanFold_cons_vis_del (ts : TxnState) (b : Bytes) (rest : List (Bytes × VStore))
    (m : List (Bytes × Bytes)) (kk : Bytes) (w : Nat)
    (hdec : decodeMvccKey b = some (.version kk w)) (hvis : isVisible ts w = true) :
    scanFold ts ((b, .opt none) :: rest) m = scanFold ts rest (mapDel kk m) := by
  conv_lhs => unfold scanFold
  rw [hdec]
  show (if isVisible ts w = true then scanFold ts rest (mapDel kk m)
    else scanFold ts rest m) = _
  rw [if_pos hvis]

theorem scanFold_cons_invis (ts : TxnState) (b : Bytes) (rest : List (Bytes × VStore))
    (m : List (Bytes × Bytes)) (o : Option Bytes) (kk : Bytes) (w : Nat)
    (hdec : decodeMvccKey b = some (.version kk w)) (hvis : isVisible ts w = false) :
    scanFold ts ((b, .opt o) :: rest) m = scanFold ts rest m := by
  cases o with
  | some rv =>
    conv_lhs => unfold scanFold
    rw [hdec]
    show (if isVisible ts w = true then scanFold ts rest (mapIns kk rv m)
      else scanFold ts rest m) = _
    rw [if_neg (by simp [hvis])]
  | none =>
    conv_lhs => unfold scanFold
    rw [hdec]
    show (if isVisible ts w = true then scanFold ts rest (mapDel kk m)
      else scanFold ts rest m) = _
    rw [if_neg (by simp [hvis])]

/-- The accumulation loop of `scan_prefix` on version-shaped entries:
it never errors, keeps the map sorted, and the final binding of every raw
key is decided by the last visible action recorded for it. -/
theorem scanFold_spec (ts : TxnState) :
    ∀ (l : List (Bytes × VStore)),
    (∀ e ∈ l, ∃ kk w o, decodeMvccKey e.1 = some (.version kk w) ∧ e.2 = .opt o) →
    ∀ (m : List (Bytes × Bytes)),
    ∃ M, scanFold ts l m = .ok M ∧
      (MapAsc m → MapAsc M) ∧
      (∀ k, mlook k M =
        lastToVal (mlook k m) (l.filterMap (fun e => actOf ts k e)).getLast?) := by
  intro l
  induction l with
  | nil =>
    intro _ m
    exact ⟨m, rfl, fun h => h, fun k => rfl⟩
  | cons e rest ih =>
    intro hshape m
    have htail := fun x hx => hshape x (List.mem_cons_of_mem _ hx)
    obtain ⟨kk, w, o, hdec0, hval0⟩ := hshape e (List.mem_cons_self e rest)
    obtain ⟨b, v⟩ := e
    have hdec : decodeMvccKey b = some (.version kk w) := hdec0
    have hval : v = .opt o := hval0
    subst hval
    have hact : ∀ k', actOf ts k' (b, VStore.opt o)
        = if kk = k' ∧ isVisible ts w = true then some o else none := by
      intro k'
      unfold actOf
      rw [show ((b, VStore.opt o).1 : Bytes) = b from rfl, hdec]
      rfl
    rcases hvis : isVisible ts w with _ | _
    · -- invisible: entry skipped entirely
      obtain ⟨M, hok, hsortM, hlookM⟩ := ih htail m
      refine ⟨M, ?_, hsortM, ?_⟩
      · rw [scanFold_cons_invis ts b rest m o kk w hdec hvis]
        exact hok
      · intro k'
        rw [List.filterMap_cons, hact k', if_neg (by simp [hvis])]
        exact hlookM k'
    · cases o with
      | some rv =>
        obtain ⟨M, hok, hsortM, hlookM⟩ := ih htail (mapIns kk rv m)
        refine ⟨M, ?_, ?_, ?_⟩
        · rw [scanFold_cons_vis_ins ts b rest m kk w rv hdec hvis]
          exact hok
        · intro hm
          exact hsortM (mapIns_sorted kk rv m hm)
        · intro k'
          rw [List.filterMap_cons, hact k']
          by_cases hk : kk = k'
          · rw [if_pos ⟨hk, hvis⟩, hlookM k']
            cases hrest : List.filterMap (fun e => actOf ts k' e) rest with
            | nil =>
              have hk' : k' = kk := hk.symm
              simp [mlook_mapIns, hk', lastToVal]
            | cons x xs =>
              rw [List.getLast?_cons_cons]
              cases hgl : (x :: xs).getLast? with
              | none =>
                rw [List.getLast?_eq_none_iff] at hgl
                cases hgl
              | some a => cases a <;> rfl
          · rw [if_neg (by simp [hk]), hlookM k']
            cases hrest : List.filterMap (fun e => actOf ts k' e) rest with
            | nil =>
              have hk' : ¬ k' = kk := fun h => hk h.symm
              simp [mlook_mapIns, hk', lastToVal]
            | cons x xs =>
              cases hgl : (x :: xs).getLast? with
              | none =>
                rw [List.getLast?_eq_none_iff] at hgl
                cases hgl
              | some a => cases a <;> rfl
      | none =>
        obtain ⟨M, hok, hsortM, hlookM⟩ := ih htail (mapDel kk m)
        refine ⟨M, ?_, ?_, ?_⟩
        · rw [scanFold_cons_vis_del ts b rest m kk w hdec hvis]
          exact hok
        · intro hm
          exact hsortM (mapDel_sorted kk m hm)
        · intro k'
          rw [List.filterMap_cons, hact k']
          by_cases hk : kk = k'
          · rw [if_pos ⟨hk, hvis⟩, hlookM k']
            cases hrest : List.filterMap (fun e => actOf ts k' e) rest with
            | nil =>
              have hk' : k' = kk := hk.symm
              simp [mlook_mapDel, hk', lastToVal]
            | cons x xs =>
              rw [List.getLast?_cons_cons]
              cases hgl : (x :: xs).getLast? with
              | none =>
                rw [List.getLast?_eq_none_iff] at hgl
                cases hgl
              | some a => cases a <;> rfl
          · rw [if_neg (by simp [hk]), hlookM k']
            cases hrest : List.filterMap (fun e => actOf ts k' e) rest with
            | nil =>
              have hk' : ¬ k' = kk := fun h => hk h.symm
              simp [mlook_mapDel, hk', lastToVal]
            | cons x xs =>
              cases hgl : (x :: xs).getLast? with
              | none =>
                rw [List.getLast?_eq_none_iff] at hgl
                cases hgl
              | some a => cases a <;> rfl

/-- Every entry selected by the truncated `Version(P)` byte prefix in a
canonical engine is a `Version(kk, w)` entry with `P` a prefix of `kk`. -/
theorem scanEntries_shape (ts : TxnState) (E : Engine) (P : Bytes)
    (hcanon : E.all canonicalEntry = true) :
    ∀ e ∈ engScanPfx (versionPfxTrunc P) E,
    ∃ kk w o, decodeMvccKey e.1 = some (.version kk w) ∧ e.2 = .opt o
      ∧ e.1 = encodeMvccKey (.version kk w) ∧ w < 2 ^ 64 ∧ P <+: kk := by
  intro e he
  have he' : e ∈ E.filter (fun kv => bytesHasPfx (versionPfxTrunc P) kv.1) := he
  have hmem : e ∈ E := List.mem_of_mem_filter he'
  have hpfx : bytesHasPfx (versionPfxTrunc P) e.1 = true := by
    simpa using List.of_mem_filter he'
  have hcan : canonicalEntry e = true := by
    rw [List.all_eq_true] at hcanon
    simpa using hcanon e hmem
  obtain ⟨k0, hdec, henc, hwf, hval⟩ := canonicalEntry_spec hcan
  cases k0 with
  | version kk w =>
    have hw : w < 2 ^ 64 := by simpa [keyWfB] using hwf
    have hvalopt : ∃ o, e.2 = .opt o := by
      cases hv2 : e.2 with
      | num n => rw [hv2] at hval; simp [valueKindOk] at hval
      | unit => rw [hv2] at hval; simp [valueKindOk] at hval
      | opt o => exact ⟨o, rfl⟩
    obtain ⟨o, ho⟩ := hvalopt
    refine ⟨kk, w, o, hdec, ho, henc, hw, ?_⟩
    rw [henc] at hpfx
    exact (versionPfx_iff P kk w).mp hpfx
  | nextVersion =>
    exfalso
    rw [henc, versionPfxTrunc_eq] at hpfx
    rw [show encodeMvccKey MvccKey.nextVersion = 0 :: [] from rfl] at hpfx
    rw [bytesHasPfx_cons_ne _ _ (by omega)] at hpfx
    cases hpfx
  | txnActive v =>
    exfalso
    rw [henc, versionPfxTrunc_eq] at hpfx
    rw [show encodeMvccKey (MvccKey.txnActive v) = 1 :: be64 v from rfl] at hpfx
    rw [bytesHasPfx_cons_ne _ _ (by omega)] at hpfx
    cases hpfx
  | txnWrite v kk =>
    exfalso
    rw [henc, versionPfxTrunc_eq] at hpfx
    rw [show encodeMvccKey (MvccKey.txnWrite v kk)
        = 2 :: (be64 v ++ encBytes kk) from rfl] at hpfx
    rw [bytesHasPfx_cons_ne _ _ (by omega)] at hpfx
    cases hpfx

/-- Unpacking a successful `wAct` on a canonical entry. -/
theorem wAct_some_spec (ts : TxnState) (k : Bytes) (e : Bytes × VStore)
    (hcan : canonicalEntry e = true) (p : Nat × Option Bytes)
    (hfe : wAct ts k e = some p) :
    e = (encodeMvccKey (.version k p.1), .opt p.2) ∧ p.1 < 2 ^ 64 ∧
      isVisible ts p.1 = true := by
  obtain ⟨k0, hdec, henc, hwf, hval⟩ := canonicalEntry_spec hcan
  unfold wAct at hfe
  rw [hdec] at hfe
  cases k0 with
  | nextVersion => simp [wActKey] at hfe
  | txnActive v => simp [wActKey] at hfe
  | txnWrite v kk => simp [wActKey] at hfe
  | version kk w =>
    have hfe2 : wActVal ts k kk w e.2 = some p := hfe
    cases hv2 : e.2 with
    | num n => rw [hv2] at hfe2; simp [wActVal] at hfe2
    | unit => rw [hv2] at hfe2; simp [wActVal] at hfe2
    | opt o =>
      rw [hv2] at hfe2
      by_cases hcond : kk = k ∧ isVisible ts w = true
      · rw [wActVal, if_pos hcond] at hfe2
        injection hfe2 with hfe2
        obtain ⟨hkk, hvis⟩ := hcond
        subst hkk
        have hw1 : w = p.1 := congrArg Prod.fst hfe2
        have ho2 : o = p.2 := congrArg Prod.snd hfe2
        subst hw1
        refine ⟨?_, by simpa [keyWfB] using hwf, hvis⟩
        rw [← ho2, ← hv2, ← henc]
      · rw [wActVal, if_neg hcond] at hfe2
        cases hfe2

/-- Membership in the visible-version list of raw key `k`. -/
theorem wActs_mem (ts : TxnState) (E : Engine)
    (hcanon : E.all canonicalEntry = true) (k : Bytes) (w : Nat) (o : Option Bytes) :
    (w, o) ∈ E.filterMap (fun e => wAct ts k e) ↔
      (w < 2 ^ 64 ∧ (encodeMvccKey (.version k w), VStore.opt o) ∈ E ∧
        isVisible ts w = true) := by
  rw [List.mem_filterMap]
  constructor
  · rintro ⟨e, he, hfe⟩
    have hcan : canonicalEntry e = true := by
      rw [List.all_eq_true] at hcanon
      simpa using hcanon e he
    obtain ⟨heq, hw, hvis⟩ := wAct_some_spec ts k e hcan (w, o) hfe
    rw [heq] at he
    exact ⟨hw, he, hvis⟩
  · rintro ⟨hw, hmem, hvis⟩
    refine ⟨(encodeMvccKey (.version k w), .opt o), hmem, ?_⟩
    show wActKey ts k (decodeMvccKey (encodeMvccKey (.version k w))) (.opt o) = some (w, o)
    rw [decode_encodeMvccKey (.version k w) hw]
    show wActVal ts k k w (.opt o) = some (w, o)
    rw [wActVal, if_pos ⟨rfl, hvis⟩]

/-- In a sorted canonical engine the visible versions of a raw key are
collected in strictly increasing version order. -/
theorem wActs_sorted (ts : TxnState) (E : Engine)
    (hcanon : E.all canonicalEntry = true) (hsort : engSorted E = true) (k : Bytes) :
    List.Pairwise (fun a b => a.1 < b.1) (E.filterMap (fun e => wAct ts k e)) := by
  rw [List.pairwise_filterMap]
  have hpw := engSorted_pairwise E hsort
  refine List.Pairwise.imp_of_mem ?_ hpw
  intro a b ha hb hlt p hp q hq
  have hcana : canonicalEntry a = true := by
    rw [List.all_eq_true] at hcanon
    simpa using hcanon a ha
  have hcanb : canonicalEntry b = true := by
    rw [List.all_eq_true] at hcanon
    simpa using hcanon b hb
  obtain ⟨heqa, hwa, _⟩ := wAct_some_spec ts k a hcana p hp
  obtain ⟨heqb, hwb, _⟩ := wAct_some_spec ts k b hcanb q hq
  have hlt2 : bytesCmp a.1 b.1 = .lt := (bytesLt_iff _ _).mp hlt
  rw [heqa, heqb] at hlt2
  have hlt3 : bytesCmp (encodeMvccKey (.version k p.1))
      (encodeMvccKey (.version k q.1)) = .lt := hlt2
  rw [cmp_encVersion_same] at hlt3
  exact (be64_cmp_lt_iff hwa hwb).mp hlt3

/-- Pre-filtering by a predicate that keeps the support of `f` does not
change a `filterMap`. -/
theorem filterMap_over_filter {α β : Type} (p : α → Bool) (f : α → Option β) :
    ∀ (L : List α), (∀ e ∈ L, f e ≠ none → p e = true) →
    (L.filter p).filterMap f = L.filterMap f := by
  intro L
  induction L with
  | nil => intro _; rfl
  | cons e rest ih =>
    intro h
    have htail := ih (fun x hx hfx => h x (List.mem_cons_of_mem _ hx) hfx)
    rw [List.filter_cons]
    rcases hp : p e with _ | _
    · have hf : f e = none := by
        rcases hfe : f e with _ | a
        · rfl
        · exfalso
          have hpe := h e (List.mem_cons_self e rest) (by rw [hfe]; simp)
          rw [hp] at hpe
          cases hpe
      rw [if_neg (by simp), htail, List.filterMap_cons, hf]
    · rw [if_pos rfl, List.filterMap_cons, List.filterMap_cons, htail]

/-- In a list with strictly increasing first components, the first
component determines the element. -/
theorem pairwise_fst_inj {l : List (Nat × Option Bytes)}
    (h : List.Pairwise (fun a b => a.1 < b.1) l) :
    ∀ p ∈ l, ∀ q ∈ l, p.1 = q.1 → p = q := by
  induction l with
  | nil => intro p hp; cases hp
  | cons x t ih =>
    rw [List.pairwise_cons] at h
    obtain ⟨hx, ht⟩ := h
    intro p hp q hq hpq
    rcases List.mem_cons.mp hp with hp1 | hp1 <;> rcases List.mem_cons.mp hq with hq1 | hq1
    · rw [hp1, hq1]
    · exfalso
      have := hx q hq1
      rw [hp1] at hpq
      omega
    · exfalso
      have := hx p hp1
      rw [hq1] at hpq
      omega
    · exact ih ht p hp1 q hq1 hpq

/-- **C4**: for any raw-byte prefix `P` and any transaction state,
`scan_prefix(P)` on a canonical sorted engine succeeds and returns exactly
the pairs `(k, v)` such that `P` is a byte prefix of the raw key `k` and
the maximal self-visible version of `k` stores `Some v` (a visible latest
tombstone, or no visible version at all, yields no pair), emitted in
strictly ascending raw-key order; and the encoded
`MvccKeyPrefix::Version(P)` with its trailing `0x00 0x00` terminator
stripped is a byte prefix of the encoding of `Version(k, w)` exactly for
the raw keys `k` that start with `P`. -/
theorem c4_scan_prefix_exact (ts : TxnState) (E : Engine) (P : Bytes)
    (hcanon : E.all canonicalEntry = true) (hsort : engSorted E = true) :
    ∃ out, mvccScanPfx ts E P = .ok out ∧
      (∀ k v, (k, v) ∈ out ↔ (P <+: k ∧ ∃ w, w < 2 ^ 64 ∧ isVisible ts w = true ∧
        (encodeMvccKey (.version k w), VStore.opt (some v)) ∈ E ∧
        (∀ w' o', w' < 2 ^ 64 → isVisible ts w' = true →
          (encodeMvccKey (.version k w'), VStore.opt o') ∈ E → w' ≤ w))) ∧
      List.Pairwise (fun a b => bytesLt a.1 b.1 = true) out ∧
      (∀ k w, bytesHasPfx (versionPfxTrunc P) (encodeMvccKey (.version k w)) = true ↔
        P <+: k) := by
  have hshape := scanEntries_shape ts E P hcanon
  obtain ⟨M, hok, hsortM, hlookM⟩ := scanFold_spec ts
    (engScanPfx (versionPfxTrunc P) E)
    (fun e he => by
      obtain ⟨kk, w, o, h1, h2, _, _, _⟩ := hshape e he
      exact ⟨kk, w, o, h1, h2⟩) []
  have hM : MapAsc M := hsortM List.Pairwise.nil
  refine ⟨M, hok, ?_, hM, fun k w => versionPfx_iff P k w⟩
  intro k v
  rw [← mlook_mem_iff k v M hM, hlookM k]
  by_cases hPk : P <+: k
  · have hacts : (engScanPfx (versionPfxTrunc P) E).filterMap (fun e => actOf ts k e)
        = E.filterMap (fun e => actOf ts k e) := by
      apply filterMap_over_filter
      intro e he hne
      rcases hf : actOf ts k e with _ | a
      · exact absurd hf hne
      · have hwa : ∃ p, wAct ts k e = some p := by
          have hrel := actOf_eq_wAct ts k e
          rw [hf] at hrel
          rcases hw2 : wAct ts k e with _ | p
          · rw [hw2] at hrel; cases hrel
          · exact ⟨p, rfl⟩
        obtain ⟨p, hp⟩ := hwa
        have hcan : canonicalEntry e = true := by
          rw [List.all_eq_true] at hcanon
          simpa using hcanon e he
        obtain ⟨heq, hwp, _⟩ := wAct_some_spec ts k e hcan p hp
        rw [heq]
        show bytesHasPfx (versionPfxTrunc P) (encodeMvccKey (.version k p.1)) = true
        exact (versionPfx_iff P k p.1).mpr hPk
    rw [hacts, filterMap_actOf, List.getLast?_map]
    have hsorted := wActs_sorted ts E hcanon hsort k
    have hmax : ∀ q, (E.filterMap (fun e => wAct ts k e)).getLast? = some q →
        ∀ y ∈ (E.filterMap (fun e => wAct ts k e)), y.1 ≤ q.1 := by
      intro q hgl y hy
      have hfst : (List.map (fun p => p.1)
          (E.filterMap (fun e => wAct ts k e))).getLast? = some q.1 := by
        rw [List.getLast?_map, hgl]
        rfl
      have hpwf : List.Pairwise (· < ·)
          (List.map (fun p => p.1) (E.filterMap (fun e => wAct ts k e))) := by
        rw [List.pairwise_map]
        exact hsorted
      obtain ⟨_, hm⟩ := getLast_max_of_sorted _ hpwf q.1 hfst
      exact hm y.1 (List.mem_map.mpr ⟨y, hy, rfl⟩)
    cases hgl : (E.filterMap (fun e => wAct ts k e)).getLast? with
    | none =>
      constructor
      · intro h
        simp [lastToVal, mlook] at h
      · rintro ⟨_, w, hw, hvis, hmem, _⟩
        exfalso
        have hv : (w, some v) ∈ E.filterMap (fun e => wAct ts k e) :=
          (wActs_mem ts E hcanon k w (some v)).mpr ⟨hw, hmem, hvis⟩
        rw [List.getLast?_eq_none_iff] at hgl
        rw [hgl] at hv
        cases hv
    | some q =>
      have hqmem : q ∈ E.filterMap (fun e => wAct ts k e) :=
        List.mem_of_getLast?_eq_some hgl
      obtain ⟨hqw, hqent, hqvis⟩ := (wActs_mem ts E hcanon k q.1 q.2).mp hqmem
      constructor
      · intro h
        have h0 : lastToVal (mlook k []) (some q.2) = some v := h
        have hq2 : q.2 = some v := by
          cases hq2c : q.2 with
          | none =>
            rw [hq2c] at h0
            have h' : (none : Option Bytes) = some v := h0
            cases h'
          | some v0 =>
            rw [hq2c] at h0
            exact h0
        refine ⟨hPk, q.1, hqw, hqvis, by rw [← hq2]; exact hqent, ?_⟩
        intro w' o' hw' hvis' hmem'
        have hv : (w', o') ∈ E.filterMap (fun e => wAct ts k e) :=
          (wActs_mem ts E hcanon k w' o').mpr ⟨hw', hmem', hvis'⟩
        exact hmax q hgl (w', o') hv
      · rintro ⟨_, w, hw, hvis, hmem, hwmax⟩
        have hmemw : (w, some v) ∈ E.filterMap (fun e => wAct ts k e) :=
          (wActs_mem ts E hcanon k w (some v)).mpr ⟨hw, hmem, hvis⟩
        have h1 : w ≤ q.1 := hmax q hgl (w, some v) hmemw
        have h2 : q.1 ≤ w := hwmax q.1 q.2 hqw hqvis hqent
        have heq : ((w, some v) : Nat × Option Bytes) = q :=
          pairwise_fst_inj hsorted (w, some v) hmemw q hqmem (by
            show w = q.1
            omega)
        have hq2 : q.2 = some v := by rw [← heq]
        show lastToVal (mlook k []) (some q.2) = some v
        rw [hq2]
        rfl
  · have hacts : (engScanPfx (versionPfxTrunc P) E).filterMap
        (fun e => actOf ts k e) = [] := by
      rw [List.filterMap_eq_nil_iff]
      intro e he
      obtain ⟨kk, w, o, hdec, hval, henc, hw, hPkk⟩ := hshape e he
      have hkk : ¬ kk = k := fun h => hPk (h ▸ hPkk)
      unfold actOf
      rw [hdec, hval]
      show actVal ts k kk w (.opt o) = none
      rw [actVal, if_neg (by intro hc; exact hkk hc.1)]
    rw [hacts]
    constructor
    · intro h
      simp [lastToVal, mlook] at h
    · rintro ⟨hp, _⟩
      exact absurd hp hPk

/-- C4 witness: a one-entry canonical engine holding a visible version of
key `[107]`, scanned at prefix `[107]` by a transaction at version 2. -/
theorem c4_scan_prefix_exact_witness :
    ∃ out, mvccScanPfx ⟨2, []⟩
        [(encodeMvccKey (.version [107] 1), VStore.opt (some [97]))] [107] = .ok out ∧
      (∀ k v, (k, v) ∈ out ↔ ([107] <+: k ∧ ∃ w, w < 2 ^ 64 ∧
        isVisible ⟨2, []⟩ w = true ∧
        (encodeMvccKey (.version k w), VStore.opt (some v)) ∈
          [(encodeMvccKey (.version [107] 1), VStore.opt (some [97]))] ∧
        (∀ w' o', w' < 2 ^ 64 → isVisible ⟨2, []⟩ w' = true →
          (encodeMvccKey (.version k w'), VStore.opt o') ∈
            [(encodeMvccKey (.version [107] 1), VStore.opt (some [97]))] → w' ≤ w))) ∧
      List.Pairwise (fun a b => bytesLt a.1 b.1 = true) out ∧
      (∀ k w, bytesHasPfx (versionPfxTrunc [107])
          (encodeMvccKey (.version k w)) = true ↔ [107] <+: k) :=
  c4_scan_prefix_exact ⟨2, []⟩
    [(encodeMvccKey (.version [107] 1), VStore.opt (some [97]))] [107]
    (by decide) (by decide)

/-- Claim C7 counterexample scenario: table `t` with primary-key column
`a` (no index), filter `a = 1`: the planner yields a plain `Scan`, not a
`PrimaryKeyScan`. -/
theorem c7_counterexample :
    buildScan (fun _ => .ok ⟨"t", [⟨"a", .integer, false, none, true, false⟩]⟩) "t"
        (some (.operation (.equal (.field "a") (.consts (.integer 1)))))
      = .ok (.scan "t" (some (.operation (.equal (.field "a") (.consts (.integer 1)))))) ∧
    ∀ v, Node.primaryKeyScan "t" v
      ≠ Node.scan "t" (some (.operation (.equal (.field "a") (.consts (.integer 1))))) := by
  constructor
  · rfl
  · intro v h
    cases h

/-- **C7** (corrected): for a WHERE predicate of shape `col = literal`
the planner's scan construction returns an `IndexScan` exactly when some
column named `col` has `index = true`, and otherwise a `Scan` carrying
the original predicate as its filter; it never returns `PrimaryKeyScan` —
for any filter whatsoever, a successful `build_scan` is an `IndexScan` or
a `Scan`, so `Node::PrimaryKeyScan` is unreachable from the planner. -/
theorem c7_build_scan_no_pk_scan (getTable : String → RRes Table)
    (tname col : String) (c : Consts) (T : Table)
    (hget : getTable tname = .ok T) :
    (buildScan getTable tname (some (.operation (.equal (.field col) (.consts c))))
      = if T.columns.any (fun cl => cl.name == col && cl.index) then
          .ok (.indexScan tname col (fromConsts c))
        else
          .ok (.scan tname (some (.operation (.equal (.field col) (.consts c)))))) ∧
    (∀ (filter : Option Expression) (n : Node),
      buildScan getTable tname filter = .ok n → ∀ t v, n ≠ .primaryKeyScan t v) := by
  constructor
  · rcases h : T.columns.any (fun cl => cl.name == col && cl.index) with _ | _ <;>
      simp [buildScan, parseScanFilter, parseScanFilterE, hget, h]
  · intro filter n hn t v
    unfold buildScan at hn
    rcases hps : parseScanFilter filter with e | ofv <;> rw [hps] at hn
    · cases hn
    · cases ofv with
      | none =>
        have hn' : Except.ok (Node.scan tname filter) = Except.ok n := hn
        injection hn' with hn'
        rw [← hn']
        intro hcontra
        cases hcontra
      | some fv =>
        rcases hg : getTable tname with e | table <;> rw [hg] at hn
        · cases hn
        · have hn' : (if table.columns.any (fun c => c.name == fv.1 && c.index) then
              Except.ok (Node.indexScan tname fv.1 fv.2)
            else Except.ok (Node.scan tname filter)) = Except.ok n := hn
          by_cases hc : table.columns.any (fun c => c.name == fv.1 && c.index) = true
          · rw [if_pos hc] at hn'
            injection hn' with hn'
            rw [← hn']
            intro hcontra
            cases hcontra
          · rw [if_neg hc] at hn'
            injection hn' with hn'
            rw [← hn']
            intro hcontra
            cases hcontra

/-- C7 witness: concrete lookup returning table `t` with only the
primary-key column `a`. -/
theorem c7_build_scan_no_pk_scan_witness :
    (buildScan (fun _ => .ok ⟨"t", [⟨"a", .integer, false, none, true, false⟩]⟩) "t"
        (some (.operation (.equal (.field "a") (.consts (.integer 1)))))
      = if (Table.mk "t" [⟨"a", .integer, false, none, true, false⟩]).columns.any
            (fun cl => cl.name == "a" && cl.index) then
          .ok (.indexScan "t" "a" (fromConsts (.integer 1)))
        else
          .ok (.scan "t" (some (.operation (.equal (.field "a") (.consts (.integer 1))))))) ∧
    (∀ (filter : Option Expression) (n : Node),
      buildScan (fun _ => .ok ⟨"t", [⟨"a", .integer, false, none, true, false⟩]⟩) "t"
          filter = .ok n → ∀ t v, n ≠ .primaryKeyScan t v) :=
  c7_build_scan_no_pk_scan (fun _ => .ok ⟨"t", [⟨"a", .integer, false, none, true, false⟩]⟩)
    "t" "a" (.integer 1) ⟨"t", [⟨"a", .integer, false, none, true, false⟩]⟩ rfl

/-- **C8** (code bug): the lexer does not tokenize `<` or `>` — the
`Token` enum has no such variants and `scan_symbol` maps only
`* ( ) , ; + - / =` — so the repository's own `test_filter` query
`select * from t1 where d < true;` fails with a parse error at `<`,
while the same query with `=` lexes fine. -/
theorem c8_lexer_missing_comparison_tokens :
    tokenize ("select * from t1 where d < true;".toList.length + 1)
        "select * from t1 where d < true;".toList = .error .parse ∧
    tokenize ("select * from t1 where d = true;".toList.length + 1)
        "select * from t1 where d = true;".toList
      = .ok [.keyword .kwSelect, .asterisk, .keyword .kwFrom, .ident "t1".toList,
          .keyword .kwWhere, .ident "d".toList, .equal, .keyword .kwTrue,
          .semicolon] ∧
    (∀ c t, scanSymbol c = some t →
      c = '*' ∨ c = '(' ∨ c = ')' ∨ c = ',' ∨ c = ';' ∨ c = '+' ∨ c = '-' ∨
        c = '/' ∨ c = '=') := by
  refine ⟨by rfl, by rfl, ?_⟩
  intro c t h
  unfold scanSymbol at h
  split at h
  · exact Or.inl rfl
  · exact Or.inr (Or.inl rfl)
  · exact Or.inr (Or.inr (Or.inl rfl))
  · exact Or.inr (Or.inr (Or.inr (Or.inl rfl)))
  · exact Or.inr (Or.inr (Or.inr (Or.inr (Or.inl rfl))))
  · exact Or.inr (Or.inr (Or.inr (Or.inr (Or.inr (Or.inl rfl)))))
  · exact Or.inr (Or.inr (Or.inr (Or.inr (Or.inr (Or.inr (Or.inl rfl))))))
  · exact Or.inr (Or.inr (Or.inr (Or.inr (Or.inr (Or.inr (Or.inr (Or.inl rfl)))))))
  · exact Or.inr (Or.inr (Or.inr (Or.inr (Or.inr (Or.inr (Or.inr (Or.inr rfl)))))))
  · cases h

/-- C8 witness: `=` is one of the nine characters `scan_symbol`
recognizes. -/
theorem c8_lexer_missing_comparison_tokens_witness :
    scanSymbol '=' = some Token.equal ∧
    ('=' = '*' ∨ '=' = '(' ∨ '=' = ')' ∨ '=' = ',' ∨ '=' = ';' ∨ '=' = '+' ∨
      '=' = '-' ∨ '=' = '/' ∨ '=' = '=') :=
  ⟨rfl, c8_lexer_missing_comparison_tokens.2.2 '=' Token.equal rfl⟩

/-- In-bounds rows never trip the positional access of the validation
loop: starting at offset `i` with `i + cols.length ≤ row.length`, the loop
returns either `.ok ()` or the `Internal` validation error, never the
out-of-bounds panic. -/
theorem validateLoop_ok_or_internal (row : List Value) :
    ∀ (cols : List Column) (i : Nat), i + cols.length ≤ row.length →
      validateLoop row cols i = .ok () ∨ validateLoop row cols i = .error .internal := by
  intro cols
  induction cols with
  | nil =>
    intro i _
    left
    rfl
  | cons c rest ih =>
    intro i hlen
    have hi : i < row.length := by
      simp only [List.length_cons] at hlen
      omega
    rcases hv : row[i]? with _ | v
    · exfalso
      rw [List.getElem?_eq_none_iff] at hv
      omega
    · have hr : rowIdx row i = .ok v := by
        simp only [rowIdx, hv]
      have hstep : validateLoop row (c :: rest) i
          = if colOk c v then validateLoop row rest (i + 1) else .error .internal := by
        conv_lhs => unfold validateLoop
        rw [hr]
      rw [hstep]
      by_cases hc : colOk c v = true
      · rw [if_pos hc]
        exact ih (i + 1) (by simp only [List.length_cons] at hlen; omega)
      · rw [if_neg hc]
        right
        rfl

/-- A successful `pad_row` padding loop yields exactly one default value
per remaining column. -/
theorem padLoop_length : ∀ (cols : List Column) (ds : List Value),
    padLoop cols = .ok ds → ds.length = cols.length := by
  intro cols
  induction cols with
  | nil =>
    intro ds h
    have h' : (Except.ok ([] : List Value) : RRes (List Value)) = .ok ds := h
    cases h'
    rfl
  | cons c rest ih =>
    intro ds h
    simp only [padLoop] at h
    rcases hd : c.dflt with _ | d
    · simp only [hd] at h
      exact Except.noConfusion h
    · simp only [hd] at h
      rcases hp : padLoop rest with e | ds'
      · simp only [hp] at h
        exact Except.noConfusion h
      · simp only [hp, Except.ok.injEq] at h
        subst h
        have := ih ds' hp
        simp only [List.length_cons]
        omega

/-- A successful `make_row` output loop yields exactly one value per table
column. -/
theorem makeLoop_length (m : List (String × Value)) :
    ∀ (cols : List Column) (ds : List Value),
      makeLoop m cols = .ok ds → ds.length = cols.length := by
  intro cols
  induction cols with
  | nil =>
    intro ds h
    have h' : (Except.ok ([] : List Value) : RRes (List Value)) = .ok ds := h
    cases h'
    rfl
  | cons c rest ih =>
    intro ds h
    simp only [makeLoop] at h
    rcases hl : lookupName c.name m with _ | v
    · simp only [hl] at h
      rcases hd : c.dflt with _ | d
      · simp only [hd] at h
        exact Except.noConfusion h
      · simp only [hd] at h
        rcases hp : makeLoop m rest with e | ds'
        · simp only [hp] at h
          exact Except.noConfusion h
        · simp only [hp, Except.ok.injEq] at h
          subst h
          have := ih ds' hp
          simp only [List.length_cons]
          omega
    · simp only [hl] at h
      rcases hp : makeLoop m rest with e | ds'
      · simp only [hp] at h
        exact Except.noConfusion h
      · simp only [hp, Except.ok.injEq] at h
        subst h
        have := ih ds' hp
        simp only [List.length_cons]
        omega

/-- **C10**: `create_row` and `get_primary_key` index the supplied row
positionally with an unchecked length precondition.  (1) On a row shorter
than the column list the validation loop's `row[i]` panics out of bounds:
`create_row` of an empty row against any table with at least one column is
the out-of-bounds panic, not an `Err`.  (2) `get_primary_key` likewise
panics via `row[pos]` on an empty row whenever the table has a primary-key
column.  (3) The precondition suffices: when `i + cols.length ≤
row.length`, the validation loop never reaches the panic — it returns
`.ok ()` or the `Internal` validation error.  (4, 5) The Insert executor's
row builders establish the precondition: a successful `pad_row` returns a
row of length `max row.length columns.length` (≥ the column count exactly
when the input row does not exceed it), and a successful `make_row`
returns a row of length exactly `columns.length`. -/
theorem c10_row_length_precondition :
    (∀ (ts : TxnState) (E : Engine) (T : Table) (c0 : Column) (rest : List Column),
        T.columns = c0 :: rest → createRow ts E T [] = .error .panicOOB) ∧
    (∀ (T : Table) (pos : Nat),
        T.columns.findIdx? (fun c => c.primaryKey) = some pos →
        getPrimaryKey T [] = .error .panicOOB) ∧
    (∀ (row : List Value) (cols : List Column) (i : Nat),
        i + cols.length ≤ row.length →
        validateLoop row cols i = .ok () ∨ validateLoop row cols i = .error .internal) ∧
    (∀ (T : Table) (row r : List Value), padRow T row = .ok r →
        r.length = max row.length T.columns.length) ∧
    (∀ (T : Table) (cols : List String) (vals : List Value) (r : List Value),
        makeRow T cols vals = .ok r → r.length = T.columns.length) := by
  refine ⟨?_, ?_, ?_, ?_, ?_⟩
  · intro ts E T c0 rest hcols
    unfold createRow
    rw [hcols]
    have hv : validateLoop [] (c0 :: rest) 0 = .error .panicOOB := by
      conv_lhs => unfold validateLoop
      rfl
    rw [hv]
  · intro T pos hpos
    unfold getPrimaryKey
    rw [hpos]
    simp only [rowIdx, List.getElem?_nil]
  · exact fun row cols i h => validateLoop_ok_or_internal row cols i h
  · intro T row r h
    rcases hp : padLoop (T.columns.drop row.length) with e | ds
    · simp only [padRow, hp] at h
      exact Except.noConfusion h
    · simp only [padRow, hp, Except.ok.injEq] at h
      subst h
      have hd := padLoop_length _ _ hp
      simp only [List.length_drop] at hd
      simp only [List.length_append, hd]
      omega
  · intro T cols vals r h
    simp only [makeRow] at h
    by_cases hc : cols.length = vals.length
    · rw [if_neg (not_not_intro hc)] at h
      exact makeLoop_length _ _ _ h
    · rw [if_pos hc] at h
      exact Except.noConfusion h

theorem c10_row_length_precondition_witness :
    createRow ⟨1, []⟩ [] ⟨"t", [⟨"a", .integer, false, none, true, false⟩]⟩ []
      = .error .panicOOB ∧
    getPrimaryKey ⟨"t", [⟨"a", .integer, false, none, true, false⟩]⟩ []
      = .error .panicOOB ∧
    (validateLoop [.integer 1] [⟨"a", .integer, false, none, true, false⟩] 0 = .ok ()
      ∨ validateLoop [.integer 1] [⟨"a", .integer, false, none, true, false⟩] 0
          = .error .internal) ∧
    [Value.integer 1].length
      = max [Value.integer 1].length
          (Table.columns ⟨"t", [⟨"a", .integer, false, none, true, false⟩]⟩).length ∧
    [Value.integer 1].length
      = (Table.columns ⟨"t", [⟨"a", .integer, false, none, true, false⟩]⟩).length := by
  refine ⟨?_, ?_, ?_, ?_, ?_⟩
  · exact c10_row_length_precondition.1 ⟨1, []⟩ [] _ _ _ rfl
  · exact c10_row_length_precondition.2.1 _ 0 rfl
  · exact c10_row_length_precondition.2.2.1 [.integer 1] _ 0 (by decide)
  · exact c10_row_length_precondition.2.2.2.1 _ [.integer 1] _ rfl
  · exact c10_row_length_precondition.2.2.2.2 _ ["a"] [.integer 1] _ rfl

/-- **C3** (counterexample): inserting the same primary key twice in the
same transaction does NOT fail with `Internal`: the duplicate check reads
`Row(T.name, pk)` through the transaction's own `get`, and own writes are
invisible to own reads (strict `w < self.version` visibility), so the
second `create_row` finds nothing and succeeds. -/
theorem c3_counterexample :
    createRow ⟨1, []⟩ [] c3Table c3Row = .ok c3E1 ∧
    createRow ⟨1, []⟩ c3E1 c3Table c3Row = .ok c3E2 ∧
    createRow ⟨1, []⟩ c3E1 c3Table c3Row ≠ .error .internal := by
  refine ⟨rfl, rfl, ?_⟩
  intro h
  rw [show createRow ⟨1, []⟩ c3E1 c3Table c3Row = .ok c3E2 from rfl] at h
  exact Except.noConfusion h

/-- **C3** (amended): the duplicate detection that `create_row` actually
performs: when the row validates, a primary key is found, the row key
encodes, and `get` of `Row(T.name, pk)` through the transaction returns
`Some` — which happens exactly for duplicates VISIBLE to the transaction,
hence for committed duplicates but not for rows written by the transaction
itself — `create_row` fails with `Internal`. -/
theorem c3_duplicate_detection (ts : TxnState) (E : Engine) (T : Table)
    (row : List Value) (pk : Value) (id b : Bytes)
    (h1 : validateLoop row T.columns 0 = .ok ())
    (h2 : getPrimaryKey T row = .ok pk)
    (h3 : encKeyRow T.name pk = .ok id)
    (h4 : mvccGet ts E id = .ok (some b)) :
    createRow ts E T row = .error .internal := by
  simp only [createRow, h1, h2, h3, h4]

theorem c3_duplicate_detection_witness :
    mvccGet ⟨2, []⟩ [(encodeMvccKey (.version c3Id 1), VStore.opt (some [0]))] c3Id
      = .ok (some [0]) ∧
    createRow ⟨2, []⟩ [(encodeMvccKey (.version c3Id 1), VStore.opt (some [0]))]
        c3Table c3Row = .error .internal :=
  ⟨rfl, c3_duplicate_detection ⟨2, []⟩ _ c3Table c3Row (.integer 1) c3Id [0]
      rfl rfl rfl rfl⟩

/-- With no stored transaction, a non-control statement goes to the
implicit-transaction catch-all. -/
theorem sessionExecute_not_control_none
    (build : Statement → TxnState → Engine → RRes Node)
    (run : Node → TxnState → Engine → Engine × RRes ResultSet)
    (stmt : Statement) (E : Engine) (h : isTxnControl stmt = false) :
    sessionExecute build run stmt none E = implicitExec build run stmt E := by
  cases stmt <;> first | rfl | (simp [isTxnControl] at h)

/-- With a stored transaction, a non-control statement goes to the
explicit-transaction catch-all. -/
theorem sessionExecute_not_control_some
    (build : Statement → TxnState → Engine → RRes Node)
    (run : Node → TxnState → Engine → Engine × RRes ResultSet)
    (stmt : Statement) (ts : TxnState) (E : Engine) (h : isTxnControl stmt = false) :
    sessionExecute build run stmt (some ts) E = explicitExec build run stmt ts E := by
  cases stmt <;> first | rfl | (simp [isTxnControl] at h)

/-- **C9**: for every non-control statement: (implicit, Ok) with no stored
transaction the session begins a fresh transaction, builds and runs the
plan against it, and on success commits it, returning the result with no
transaction stored; (implicit, Err) on execution failure it rolls the
fresh transaction back and propagates the execution error, again storing
no transaction; (explicit) with a stored transaction it builds and runs
against that transaction without committing or rolling back, and the
transaction stays stored. -/
theorem c9_session_implicit_transaction
    (build : Statement → TxnState → Engine → RRes Node)
    (run : Node → TxnState → Engine → Engine × RRes ResultSet) :
    (∀ (stmt : Statement) (E : Engine) (ts : TxnState) (E1 : Engine) (p : Node)
        (E2 : Engine) (r : ResultSet),
      isTxnControl stmt = false →
      mvccBegin E = .ok (ts, E1) → build stmt ts E1 = .ok p →
      run p ts E1 = (E2, .ok r) →
      sessionExecute build run stmt none E = (.ok r, none, mvccCommit ts E2)) ∧
    (∀ (stmt : Statement) (E : Engine) (ts : TxnState) (E1 : Engine) (p : Node)
        (E2 : Engine) (err : RErr) (E3 : Engine),
      isTxnControl stmt = false →
      mvccBegin E = .ok (ts, E1) → build stmt ts E1 = .ok p →
      run p ts E1 = (E2, .error err) → mvccRollback ts E2 = .ok E3 →
      sessionExecute build run stmt none E = (.error err, none, E3)) ∧
    (∀ (stmt : Statement) (E : Engine) (ts : TxnState) (p : Node)
        (E' : Engine) (r : RRes ResultSet),
      isTxnControl stmt = false →
      build stmt ts E = .ok p → run p ts E = (E', r) →
      sessionExecute build run stmt (some ts) E = (r, some ts, E')) := by
  refine ⟨?_, ?_, ?_⟩
  · intro stmt E ts E1 p E2 r hctl hb hbuild hrun
    rw [sessionExecute_not_control_none build run stmt E hctl]
    simp only [implicitExec, hb, hbuild, hrun]
  · intro stmt E ts E1 p E2 err E3 hctl hb hbuild hrun hrb
    rw [sessionExecute_not_control_none build run stmt E hctl]
    simp only [implicitExec, hb, hbuild, hrun, hrb]
  · intro stmt E ts p E' r hctl hbuild hrun
    rw [sessionExecute_not_control_some build run stmt ts E hctl]
    simp only [explicitExec, hbuild, hrun]

theorem c9_session_implicit_transaction_witness :
    isTxnControl (.delete "t" none) = false ∧
    sessionExecute c9Build c9Run (.delete "t" none) none []
      = (.ok (.delete 0), none, mvccCommit ⟨0, []⟩ c9E1) :=
  ⟨rfl, (c9_session_implicit_transaction c9Build c9Run).1 (.delete "t" none) []
      ⟨0, []⟩ c9E1 (.scan "t" none) c9E1 (.delete 0) rfl rfl rfl rfl⟩

end RSDB
